import Mathlib

/-!
# Template semantics of the conformance scripts

A shallow embedding of `scripts/test-semantics.js` (`normalizeStringSet`,
`extractVariables`, `renderContent`, `computeMissing`) and of
`scripts/lib/parseJsonFile.js`, followed by the theorems that settle the
properties stated about them.

Modelling conventions.

* A JavaScript string is the list of its UTF-16 code units (`JSString`). The
  three regular expressions of the scripts carry no `u` flag, so they work on
  code units, and the default `Array.prototype.sort` compares code units.
* `String.prototype.replace` and `matchAll` with a global regular expression
  first collect the successive leftmost non-overlapping matches and then call
  the replacer once per match, in order (`pieces`).
* Each regular expression is a fixed prefix, greedy runs over pairwise
  disjoint character classes and a fixed suffix, so backtracking can never
  succeed where the greedy run fails; the anchored matchers are written
  with `takeWhile`/`dropWhile`.
* A JavaScript object is a list of own enumerable entries with distinct keys.
* `Value.num n` stands for the JavaScript number `n` when `n` is a safe
  integer (magnitude at most `2 ^ 53`), which `String` prints in plain
  decimal. Larger integers stand for no JavaScript number (`String` rounds
  the digits from `2 ^ 53` up and switches to exponent form at `10 ^ 21`),
  and numbers with a fraction have no `Value`; a value acts in the scripts
  only through `String(value)`, so such a number is covered by the string
  `Value.str` of its text.
* `Number(rawIdx)` is read as exact decimal parsing; the two agree below
  `2 ^ 53`, beyond any possible array length.
-/

namespace PromptG

/-! ## Strings and character classes -/

/-- JavaScript string value, as the sequence of its UTF-16 code units. -/
abbrev JSString := List Nat

/-- Code units of a literal made of characters of the Basic Multilingual Plane. -/
def js (s : String) : JSString := s.toList.map Char.toNat

/-- Code unit of `{`. -/
abbrev lbrace : Nat := 123

/-- Code unit of `}`. -/
abbrev rbrace : Nat := 125

/-- Code unit of `!`. -/
abbrev bang : Nat := 33

/-- Regex class `[a-zA-Z0-9_-]`. -/
def isNameChar (c : Nat) : Bool :=
  (97 ≤ c && c ≤ 122) || (65 ≤ c && c ≤ 90) || (48 ≤ c && c ≤ 57) || c == 95 || c == 45

/-- Regex class `\s` of ECMAScript without the `u` flag: WhiteSpace and LineTerminator. -/
def isSpace (c : Nat) : Bool :=
  (9 ≤ c && c ≤ 13) || c == 32 || c == 160 || c == 5760 || (8192 ≤ c && c ≤ 8202) ||
    c == 8232 || c == 8233 || c == 8239 || c == 8287 || c == 12288 || c == 65279

/-- Regex class `\d`. -/
def isDigit (c : Nat) : Bool := 48 ≤ c && c ≤ 57

/-- Remove a literal prefix, if the string starts with it. -/
def stripPrefix : JSString → JSString → Option JSString
  | [], s => some s
  | _ :: _, [] => none
  | p :: ps, c :: cs => if p = c then stripPrefix ps cs else none

/-! ## Anchored matchers for the three regular expressions

Each returns the matched text `m[0]` and the capture group `m[1]`. -/

/-- Regex `\{\{\s*([a-zA-Z0-9_-]+)\s*\}\}` tried at the head of `s`. -/
def matchVar (s : JSString) : Option (JSString × JSString) :=
  match stripPrefix [lbrace, lbrace] s with
  | none => none
  | some t =>
    let w1 := t.takeWhile isSpace
    let t1 := t.dropWhile isSpace
    let name := t1.takeWhile isNameChar
    let t2 := t1.dropWhile isNameChar
    let w2 := t2.takeWhile isSpace
    let t3 := t2.dropWhile isSpace
    if name = [] then none
    else
      match stripPrefix [rbrace, rbrace] t3 with
      | none => none
      | some _ => some ([lbrace, lbrace] ++ w1 ++ name ++ w2 ++ [rbrace, rbrace], name)

/-- Regex `\{\{!([a-zA-Z0-9_-]+)\}\}` tried at the head of `s`. -/
def matchEsc (s : JSString) : Option (JSString × JSString) :=
  match stripPrefix [lbrace, lbrace, bang] s with
  | none => none
  | some t =>
    let name := t.takeWhile isNameChar
    let t1 := t.dropWhile isNameChar
    if name = [] then none
    else
      match stripPrefix [rbrace, rbrace] t1 with
      | none => none
      | some _ => some ([lbrace, lbrace, bang] ++ name ++ [rbrace, rbrace], name)

/-- Text `PROMPTG_ESC_` between the leading NUL and the index of a placeholder. -/
def escTag : JSString := js "PROMPTG_ESC_"

/-- Regex `\u0000PROMPTG_ESC_(\d+)\u0000` tried at the head of `s`. -/
def matchPlaceholder (s : JSString) : Option (JSString × JSString) :=
  match stripPrefix (0 :: escTag) s with
  | none => none
  | some t =>
    let digits := t.takeWhile isDigit
    let t1 := t.dropWhile isDigit
    if digits = [] then none
    else
      match stripPrefix [0] t1 with
      | none => none
      | some _ => some (0 :: escTag ++ digits ++ [0], digits)

/-! ## Global matching -/

/-- One step of a global scan: a code unit outside every match, or a match
with its text and capture group. -/
inductive Piece
  | lit (c : Nat)
  | hit (text group : JSString)
  deriving DecidableEq

/-- Successive matches of a global regular expression. The scan starts with
`skip = 0`; after a match of length `n` at some index the next attempt is made
`n` code units further (`lastIndex`), the units in between being skipped. -/
def pieces (m : JSString → Option (JSString × JSString)) : JSString → Nat → List Piece
  | [], _ => []
  | _ :: cs, k + 1 => pieces m cs k
  | c :: cs, 0 =>
    match m (c :: cs) with
    | some (t, g) => Piece.hit t g :: pieces m cs (t.length - 1)
    | none => Piece.lit c :: pieces m cs 0

/-- Capture groups collected by `[...content.matchAll(regex)].map((m) => m[1])`. -/
def matchAllGroups (m : JSString → Option (JSString × JSString)) (s : JSString) :
    List JSString :=
  (pieces m s 0).filterMap fun p =>
    match p with
    | Piece.lit _ => none
    | Piece.hit _ g => some g

/-- Output of `s.replace(regex, f)` for a global regex and a replacer
function `f (match, group)` without side effects. -/
def replaceAll (m : JSString → Option (JSString × JSString))
    (f : JSString → JSString → JSString) (s : JSString) : JSString :=
  ((pieces m s 0).map fun p =>
    match p with
    | Piece.lit c => [c]
    | Piece.hit t g => f t g).flatten

/-! ## `normalizeStringSet` and `extractVariables` -/

/-- Method `Set.prototype.add` on a set kept in insertion order. -/
def setAdd (s : List JSString) (k : JSString) : List JSString :=
  if k ∈ s then s else s ++ [k]

/-- Expression `[...new Set(out)]`: the distinct items, in order of first occurrence. -/
def newSet (out : List JSString) : List JSString := out.foldl setAdd []

/-- Default `Array.prototype.sort` on strings: ascending by code units. -/
def jsSort (l : List JSString) : List JSString := l.insertionSort (· ≤ ·)

/-- Function `normalizeStringSet`. The argument is typed as an array of
strings, so the two `return null` exits are never taken and the result is
always `some`. -/
def normalizeStringSet (arr : List JSString) : Option (List JSString) :=
  some (jsSort (newSet arr))

/-- Function `extractVariables`. -/
def extractVariables (content : JSString) : List JSString :=
  (normalizeStringSet (matchAllGroups matchVar content)).getD []

/-! ## Values and objects -/

/-- Scalar values a value map can hold. `num n` stands for the number `n`
when `n` is a safe integer (magnitude at most `2 ^ 53`). -/
inductive Value
  | str (s : JSString)
  | num (n : Int)
  | bool (b : Bool)
  | null
  | undefined
  deriving DecidableEq

/-- Decimal digits of `n`, most significant first, pushed in front of `acc`. -/
def digitsAux : Nat → Nat → JSString → JSString
  | 0, _, acc => acc
  | fuel + 1, n, acc =>
    if n < 10 then (48 + n) :: acc else digitsAux fuel (n / 10) ((48 + n % 10) :: acc)

/-- Decimal text of a natural number, as produced by a template literal. -/
def natToString (n : Nat) : JSString := digitsAux (n + 1) n []

/-- Conversion `String(value)`. On `num n` it is the plain decimal text of
`n`, which is what `String` prints for a safe integer. -/
def toJSString : Value → JSString
  | Value.str s => s
  | Value.num n => if n < 0 then 45 :: natToString n.natAbs else natToString n.natAbs
  | Value.bool true => js "true"
  | Value.bool false => js "false"
  | Value.null => js "null"
  | Value.undefined => js "undefined"

/-- Conversion `Number(rawIdx)` of a string of decimal digits. -/
def parseDigits (s : JSString) : Nat := s.foldl (fun acc c => acc * 10 + (c - 48)) 0

/-- Plain object: its own enumerable entries, each key once. -/
structure JSObject where
  entries : List (JSString × Value)
  nodupKeys : (entries.map Prod.fst).Nodup

/-- Object literal without entries. -/
def emptyObject : JSObject := ⟨[], List.nodup_nil⟩

/-- Call `Object.prototype.hasOwnProperty.call(o, key)`. -/
def hasOwnProperty (o : JSObject) (key : JSString) : Bool := (o.entries.lookup key).isSome

/-- Property read `o[key]` of an own property. -/
def getProp (o : JSObject) (key : JSString) : Value := (o.entries.lookup key).getD Value.undefined

/-- Test `value === null || value === undefined`. -/
def isNullish (v : Value) : Bool :=
  match v with
  | Value.null => true
  | Value.undefined => true
  | _ => false

/-! ## `renderContent` -/

/-- Placeholder text for the escaped reference number `idx`. -/
def placeholder (idx : Nat) : JSString := 0 :: escTag ++ natToString idx ++ [0]

/-- First `replace` of `renderContent`: every match pushes its name on
`escaped` and is replaced by the placeholder carrying its index. Returns the
protected content and the final `escaped` array. -/
def protect : List Piece → List JSString → JSString × List JSString
  | [], escaped => ([], escaped)
  | Piece.lit c :: ps, escaped =>
    let r := protect ps escaped
    (c :: r.1, r.2)
  | Piece.hit _ name :: ps, escaped =>
    let pushed := escaped ++ [name]
    let idx := pushed.length - 1
    let r := protect ps pushed
    (placeholder idx ++ r.1, r.2)

/-- Replacer of the second `replace` of `renderContent`. -/
def substituteCallback (vars defaults : JSObject) (mtch key : JSString) : JSString :=
  if hasOwnProperty vars key then
    let value := getProp vars key
    if isNullish value then mtch else toJSString value
  else if hasOwnProperty defaults key then
    let value := getProp defaults key
    if isNullish value then mtch else toJSString value
  else mtch

/-- Second `replace` of `renderContent`, on its own. -/
def substitutePass (vars defaults : JSObject) (s : JSString) : JSString :=
  replaceAll matchVar (substituteCallback vars defaults) s

/-- Replacer of the third `replace` of `renderContent`. -/
def unescapeCallback (escaped : List JSString) (_mtch rawIdx : JSString) : JSString :=
  match escaped.get? (parseDigits rawIdx) with
  | some name => [lbrace, lbrace] ++ name ++ [rbrace, rbrace]
  | none => []

/-- Third `replace` of `renderContent`, on its own. -/
def unescapePass (escaped : List JSString) (s : JSString) : JSString :=
  replaceAll matchPlaceholder (unescapeCallback escaped) s

/-- Function `renderContent`. -/
def renderContent (content : JSString) (vars defaults : JSObject) : JSString :=
  let r := protect (pieces matchEsc content 0) []
  let protectedContent := r.1
  let escaped := r.2
  let substituted := substitutePass vars defaults protectedContent
  unescapePass escaped substituted

/-! ## `computeMissing` -/

/-- Loop `for (const [k, v] of Object.entries(o)) if (v !== null && v !== undefined) present.add(k)`. -/
def addPresent (present : List JSString) (o : JSObject) : List JSString :=
  o.entries.foldl (fun acc kv => if isNullish kv.2 then acc else setAdd acc kv.1) present

/-- Function `computeMissing`. -/
def computeMissing (extracted : List JSString) (vars defaults : JSObject) : List JSString :=
  let present := addPresent (addPresent [] vars) defaults
  (normalizeStringSet (extracted.filter fun v => !(present.contains v))).getD []

/-! ## `parseJsonFile` -/

/-- Ways in which `parseJsonFile` throws: its own encoding errors, and whatever
`JSON.parse` throws. -/
inductive LoadError (ε : Type)
  | encoding (message : String)
  | parse (e : ε)

/-- Message thrown for the prefix `EF BB BF`. -/
def msgUtf8Bom : String := "Encoding error: UTF-8 BOM not allowed; re-save as UTF-8 (no BOM)."

/-- Message thrown for the prefix `00 00 FE FF`. -/
def msgUtf32BE : String := "Encoding error: UTF-32 BE is not allowed; re-save as UTF-8 (no BOM)."

/-- Message thrown for the prefix `FF FE 00 00`. -/
def msgUtf32LE : String := "Encoding error: UTF-32 LE is not allowed; re-save as UTF-8 (no BOM)."

/-- Message thrown for the prefix `FE FF`. -/
def msgUtf16BE : String := "Encoding error: UTF-16 BE is not allowed; re-save as UTF-8 (no BOM)."

/-- Message thrown for the prefix `FF FE`. -/
def msgUtf16LE : String := "Encoding error: UTF-16 LE is not allowed; re-save as UTF-8 (no BOM)."

/-- Function `parseJsonFile` on the bytes `buf` read from the file. The
parameter `jsonParse` stands for `(buf) => JSON.parse(buf.toString(utf8))`. -/
def parseJsonFile {ε α : Type} (jsonParse : List Nat → Except ε α) (buf : List Nat) :
    Except (LoadError ε) α :=
  if buf.length ≥ 3 ∧ buf.get? 0 = some 0xef ∧ buf.get? 1 = some 0xbb ∧ buf.get? 2 = some 0xbf then
    Except.error (LoadError.encoding msgUtf8Bom)
  else if buf.length ≥ 4 ∧ buf.get? 0 = some 0x00 ∧ buf.get? 1 = some 0x00 ∧
      buf.get? 2 = some 0xfe ∧ buf.get? 3 = some 0xff then
    Except.error (LoadError.encoding msgUtf32BE)
  else if buf.length ≥ 4 ∧ buf.get? 0 = some 0xff ∧ buf.get? 1 = some 0xfe ∧
      buf.get? 2 = some 0x00 ∧ buf.get? 3 = some 0x00 then
    Except.error (LoadError.encoding msgUtf32LE)
  else if buf.length ≥ 2 ∧ buf.get? 0 = some 0xfe ∧ buf.get? 1 = some 0xff then
    Except.error (LoadError.encoding msgUtf16BE)
  else if buf.length ≥ 2 ∧ buf.get? 0 = some 0xff ∧ buf.get? 1 = some 0xfe then
    Except.error (LoadError.encoding msgUtf16LE)
  else
    match jsonParse buf with
    | Except.ok v => Except.ok v
    | Except.error e => Except.error (LoadError.parse e)

/-! ## Reference texts -/

/-- Text `{{` w1 name w2 `}}` of a variable reference. -/
def varRef (w1 name w2 : JSString) : JSString :=
  [lbrace, lbrace] ++ w1 ++ name ++ w2 ++ [rbrace, rbrace]

/-- Text `{{!` name `}}` of an escaped reference. -/
def escRef (name : JSString) : JSString := [lbrace, lbrace, bang] ++ name ++ [rbrace, rbrace]

/-! ## Predicates used in the statements -/

/-- The string `n` matches `[a-zA-Z0-9_-]+`. -/
def IsName (n : JSString) : Prop := n ≠ [] ∧ ∀ c ∈ n, isNameChar c = true

/-- The string `w` matches `\s*`. -/
def IsBlank (w : JSString) : Prop := ∀ c ∈ w, isSpace c = true

/-- Text `t` is a variable reference to `g`: `{{`, blanks, the name `g`, blanks, `}}`. -/
def IsVarRef (t g : JSString) : Prop :=
  ∃ w1 w2, IsBlank w1 ∧ IsBlank w2 ∧ IsName g ∧ t = varRef w1 g w2

/-- Text `t` is the escaped reference `{{!g}}`. -/
def IsEscRef (t g : JSString) : Prop := IsName g ∧ t = escRef g

/-- Text `t` is a placeholder token: NUL, `PROMPTG_ESC_`, the digits `g`, NUL. -/
def IsPlaceholder (t g : JSString) : Prop :=
  g ≠ [] ∧ (∀ c ∈ g, isDigit c = true) ∧ t = 0 :: escTag ++ g ++ [0]

/-- Text that starts with `{{` and holds no further `{`. -/
def Braced (t : JSString) : Prop :=
  ∃ body, t = lbrace :: lbrace :: body ∧ lbrace ∉ body ∧ body ≠ []

/-- The matcher `m` recognises exactly the instances of `Pat` at the head of a
string, and its answer does not depend on what follows the instance. -/
structure Recognises (m : JSString → Option (JSString × JSString))
    (Pat : JSString → JSString → Prop) : Prop where
  sound : ∀ {s t g}, m s = some (t, g) → Pat t g ∧ ∃ r, s = t ++ r
  complete : ∀ {t g} (r : JSString), Pat t g → m (t ++ r) = some (t, g)
  nonempty : ∀ {t g}, Pat t g → t ≠ []

/-- Source text of a piece. -/
def Piece.text : Piece → JSString
  | Piece.lit c => [c]
  | Piece.hit t _ => t

/-- Capture group of a piece, if the piece is a match. -/
def Piece.group? : Piece → Option JSString
  | Piece.lit _ => none
  | Piece.hit _ g => some g

/-- The object `o` has the own property `n` with the value `v`. -/
def HasEntry (o : JSObject) (n : JSString) (v : Value) : Prop := (n, v) ∈ o.entries

/-- The object `o` has a value for `n` that is neither `null` nor `undefined`. -/
def HasValue (o : JSObject) (n : JSString) : Prop :=
  ∃ v, (n, v) ∈ o.entries ∧ isNullish v = false

/-- The content `c` contains an escaped reference `{{!x}}`. -/
def ContainsEscRef (c : JSString) : Prop :=
  ∃ pre x post, IsName x ∧ c = pre ++ escRef x ++ post

/-- No string value of the object holds the code unit U+0000. -/
def NulFreeValues (o : JSObject) : Prop :=
  ∀ k s, (k, Value.str s) ∈ o.entries → 0 ∉ s

/-- Result of `JSON.parse` as `parseJsonFile` passes it on. -/
def liftParse {ε α : Type} (r : Except ε α) : Except (LoadError ε) α :=
  match r with
  | Except.ok v => Except.ok v
  | Except.error e => Except.error (LoadError.parse e)

/-- The result is one of the encoding errors of `parseJsonFile`. -/
def IsEncodingError {ε α : Type} (r : Except (LoadError ε) α) : Prop :=
  ∃ msg, r = Except.error (LoadError.encoding msg)

/-! ## Rendering piece by piece -/

/-- Rendering read off the pieces of the escape scan: the text between two
escaped references goes through `sub` as a whole, and each escaped reference
becomes the literal `{{name}}`. -/
def renderPieces (sub : JSString → JSString) : JSString → List Piece → JSString
  | seg, [] => sub seg
  | seg, Piece.lit c :: ps => renderPieces sub (seg ++ [c]) ps
  | seg, Piece.hit _ name :: ps => sub seg ++ varRef [] name [] ++ renderPieces sub [] ps

/-! ## Inputs of the test vectors and of the counterexamples -/

/-- Object with the single entry `key: value`. -/
def singleton (key : JSString) (value : Value) : JSObject :=
  ⟨[(key, value)], by simp⟩

/-- Content `{{a}}`. -/
def refA : JSString := varRef [] (js "a") []

/-- Value map `{a: null}`. -/
def varsNullA : JSObject := singleton (js "a") Value.null

/-- Defaults map `{a: "x"}`. -/
def defaultsAX : JSObject := singleton (js "a") (Value.str (js "x"))

/-- Value map `{a: "1"}`. -/
def varsA1 : JSObject := singleton (js "a") (Value.str (js "1"))

/-- Defaults map `{a: "2", b: "3"}`. -/
def defaultsA2B3 : JSObject :=
  ⟨[(js "a", Value.str (js "2")), (js "b", Value.str (js "3"))], by decide⟩

/-- Content `Hello {{name}}, {{!secret}} stays literal, {{missing}} unresolved`. -/
def roundTripContent : JSString :=
  js "Hello " ++ varRef [] (js "name") [] ++ js ", " ++ escRef (js "secret") ++
    js " stays literal, " ++ varRef [] (js "missing") [] ++ js " unresolved"

/-- Value map `{name: "World"}`. -/
def varsNameWorld : JSObject := singleton (js "name") (Value.str (js "World"))

/-- Content `{{b}}`. -/
def refB : JSString := varRef [] (js "b") []

/-- Defaults map `{b: "\u0000PROMPTG_ESC_0\u0000"}`. -/
def defaultsPlaceholderB : JSObject := singleton (js "b") (Value.str (placeholder 0))

/-- Value map `{secret: "v"}`. -/
def varsSecret : JSObject := singleton (js "secret") (Value.str (js "v"))

/-- Content `{{b}} {{ab}} {{a}} {{b}}`. -/
def contentRepeated : JSString :=
  varRef [] (js "b") [] ++ js " " ++ varRef [] (js "ab") [] ++ js " " ++
    varRef [] (js "a") [] ++ js " " ++ varRef [] (js "b") []

/-- Content `{{a}}{{b}}{{ab}}`. -/
def contentOnce : JSString :=
  varRef [] (js "a") [] ++ varRef [] (js "b") [] ++ varRef [] (js "ab") []

/-- Content `{{a}} and {{ a }}`. -/
def contentTwiceA : JSString :=
  varRef [] (js "a") [] ++ js " and " ++ varRef [32] (js "a") [32]

/-- Malformed sequence `{{}}`. -/
def malformedEmpty : JSString := [lbrace, lbrace, rbrace, rbrace]

/-- Malformed sequence `{{ }}`. -/
def malformedBlank : JSString := [lbrace, lbrace, 32, rbrace, rbrace]

/-- Unterminated sequence `{{foo`. -/
def unterminated : JSString := [lbrace, lbrace] ++ js "foo"

/-- Content `\u0000PROMPTG_ESC_5{{!x}}`: the start of a placeholder, then an escaped reference. -/
def collidingContent : JSString := 0 :: escTag ++ js "5" ++ escRef (js "x")

/-- Content `{{a}}{{!x}}`. -/
def refThenEscape : JSString := varRef [] (js "a") [] ++ escRef (js "x")

/-- Value map `{a: "\u0000PROMPTG_ESC_5"}`. -/
def varsCollidingA : JSObject := singleton (js "a") (Value.str (0 :: escTag ++ js "5"))

/-- Value map `{x: "v"}`. -/
def varsXV : JSObject := singleton (js "x") (Value.str (js "v"))

/-- Value map `{a: "\u0000PROMPTG_ESC_0\u0000"}`. -/
def varsPlaceholderA : JSObject := singleton (js "a") (Value.str (placeholder 0))

/-- Byte-order mark of UTF-8. -/
def bomUtf8 : List Nat := [0xef, 0xbb, 0xbf]

/-- Byte-order mark of UTF-32, big endian. -/
def bomUtf32BE : List Nat := [0x00, 0x00, 0xfe, 0xff]

/-- Byte-order mark of UTF-32, little endian. -/
def bomUtf32LE : List Nat := [0xff, 0xfe, 0x00, 0x00]

/-- Byte-order mark of UTF-16, big endian. -/
def bomUtf16BE : List Nat := [0xfe, 0xff]

/-- Byte-order mark of UTF-16, little endian. -/
def bomUtf16LE : List Nat := [0xff, 0xfe]

/-! # Theorems -/

/-! ## Character classes -/

theorem isSpace_not_name {c : Nat} (h : isSpace c = true) : isNameChar c = false := by
  simp only [isSpace, isNameChar, Bool.or_eq_true, Bool.and_eq_true, decide_eq_true_eq,
    beq_iff_eq] at h
  simp only [isNameChar, Bool.or_eq_false_iff, Bool.and_eq_false_imp, decide_eq_true_eq,
    decide_eq_false_iff_not, beq_eq_false_iff_ne]
  omega

theorem isName_not_space {c : Nat} (h : isNameChar c = true) : isSpace c = false := by
  cases hs : isSpace c
  · rfl
  · rw [isSpace_not_name hs] at h; cases h

theorem isName_ne {c : Nat} (h : isNameChar c = true) :
    c ≠ 0 ∧ c ≠ lbrace ∧ c ≠ rbrace ∧ c ≠ bang := by
  simp only [isNameChar, Bool.or_eq_true, Bool.and_eq_true, decide_eq_true_eq,
    beq_iff_eq] at h
  simp only [lbrace, rbrace, bang]
  omega

theorem isSpace_ne {c : Nat} (h : isSpace c = true) :
    c ≠ 0 ∧ c ≠ lbrace ∧ c ≠ rbrace ∧ c ≠ bang := by
  simp only [isSpace, Bool.or_eq_true, Bool.and_eq_true, decide_eq_true_eq,
    beq_iff_eq] at h
  simp only [lbrace, rbrace, bang]
  omega

theorem isDigit_ne {c : Nat} (h : isDigit c = true) : c ≠ 0 ∧ c ≠ lbrace := by
  simp only [isDigit, Bool.and_eq_true, decide_eq_true_eq] at h
  simp only [lbrace]
  omega

/-! ## Prefixes and greedy runs -/

theorem stripPrefix_eq_some {p s t : JSString} : stripPrefix p s = some t ↔ s = p ++ t := by
  induction p generalizing s with
  | nil => simp [stripPrefix, eq_comm]
  | cons a p ih =>
    cases s with
    | nil => simp [stripPrefix]
    | cons c cs =>
      simp only [stripPrefix, List.cons_append, List.cons.injEq]
      split_ifs with h
      · subst h; simp [ih]
      · simp only [false_iff, not_and]
        intro h'; exact absurd h'.symm h

theorem takeWhile_append_of_all {p : Nat → Bool} {w : JSString} (r : JSString)
    (h : ∀ x ∈ w, p x = true) : (w ++ r).takeWhile p = w ++ r.takeWhile p := by
  induction w with
  | nil => rfl
  | cons a w ih =>
    have ha : p a = true := h a (List.mem_cons_self _ _)
    simp [List.takeWhile_cons, ha, ih fun x hx => h x (List.mem_cons_of_mem _ hx)]

theorem dropWhile_append_of_all {p : Nat → Bool} {w : JSString} (r : JSString)
    (h : ∀ x ∈ w, p x = true) : (w ++ r).dropWhile p = r.dropWhile p := by
  induction w with
  | nil => rfl
  | cons a w ih =>
    have ha : p a = true := h a (List.mem_cons_self _ _)
    simp [List.dropWhile_cons, ha, ih fun x hx => h x (List.mem_cons_of_mem _ hx)]

theorem takeWhile_head_false {p : Nat → Bool} {c : Nat} (r : JSString) (h : p c = false) :
    (c :: r).takeWhile p = [] := by
  simp [List.takeWhile_cons, h]

theorem dropWhile_head_false {p : Nat → Bool} {c : Nat} (r : JSString) (h : p c = false) :
    (c :: r).dropWhile p = c :: r := by
  simp [List.dropWhile_cons, h]

/-! ## The matchers recognise their patterns -/

theorem matchVar_recognises : Recognises matchVar IsVarRef where
  sound := by
    intro s t g h
    unfold matchVar at h
    split at h
    · cases h
    · rename_i T hT
      rw [stripPrefix_eq_some] at hT
      simp only at h
      split_ifs at h with hn
      split at h
      · cases h
      · rename_i r hr
        rw [stripPrefix_eq_some] at hr
        simp only [Option.some.injEq, Prod.mk.injEq] at h
        obtain ⟨ht, hg⟩ := h
        have e1 := List.takeWhile_append_dropWhile isSpace T
        have e2 := List.takeWhile_append_dropWhile isNameChar (T.dropWhile isSpace)
        have e3 := List.takeWhile_append_dropWhile isSpace
          ((T.dropWhile isSpace).dropWhile isNameChar)
        refine ⟨⟨T.takeWhile isSpace,
          ((T.dropWhile isSpace).dropWhile isNameChar).takeWhile isSpace,
          fun c hc => List.mem_takeWhile_imp hc, fun c hc => List.mem_takeWhile_imp hc,
          ⟨?_, ?_⟩, ?_⟩, r, ?_⟩
        · rw [← hg]; exact hn
        · rw [← hg]; exact fun c hc => List.mem_takeWhile_imp hc
        · rw [← ht, ← hg]; rfl
        · rw [hT, ← ht]
          conv_lhs => rw [← e1, ← e2, ← e3, hr]
          simp [List.append_assoc]
  complete := by
    rintro t g r ⟨w1, w2, hw1, hw2, ⟨hg, hgn⟩, rfl⟩
    obtain ⟨c, g', rfl⟩ := List.exists_cons_of_ne_nil hg
    have hc : isNameChar c = true := hgn c (List.mem_cons_self _ _)
    have hstrip : stripPrefix [lbrace, lbrace] (varRef w1 (c :: g') w2 ++ r)
        = some (w1 ++ ((c :: g') ++ (w2 ++ (rbrace :: rbrace :: r)))) := by
      rw [stripPrefix_eq_some]; simp [varRef]
    have hw2n : (w2 ++ (rbrace :: rbrace :: r)).takeWhile isNameChar = [] := by
      cases w2 with
      | nil => exact takeWhile_head_false _ (by decide)
      | cons a w => exact takeWhile_head_false _ (isSpace_not_name (hw2 a (List.mem_cons_self _ _)))
    have hw2d : (w2 ++ (rbrace :: rbrace :: r)).dropWhile isNameChar
        = w2 ++ (rbrace :: rbrace :: r) := by
      cases w2 with
      | nil => exact dropWhile_head_false _ (by decide)
      | cons a w => exact dropWhile_head_false _ (isSpace_not_name (hw2 a (List.mem_cons_self _ _)))
    have h1 : (w1 ++ ((c :: g') ++ (w2 ++ (rbrace :: rbrace :: r)))).takeWhile isSpace = w1 := by
      rw [takeWhile_append_of_all _ hw1, List.cons_append,
        takeWhile_head_false _ (isName_not_space hc), List.append_nil]
    have h2 : (w1 ++ ((c :: g') ++ (w2 ++ (rbrace :: rbrace :: r)))).dropWhile isSpace
        = (c :: g') ++ (w2 ++ (rbrace :: rbrace :: r)) := by
      rw [dropWhile_append_of_all _ hw1, List.cons_append,
        dropWhile_head_false _ (isName_not_space hc)]
    have h3 : ((c :: g') ++ (w2 ++ (rbrace :: rbrace :: r))).takeWhile isNameChar = c :: g' := by
      rw [takeWhile_append_of_all _ hgn, hw2n, List.append_nil]
    have h4 : ((c :: g') ++ (w2 ++ (rbrace :: rbrace :: r))).dropWhile isNameChar
        = w2 ++ (rbrace :: rbrace :: r) := by
      rw [dropWhile_append_of_all _ hgn, hw2d]
    have h5 : (w2 ++ (rbrace :: rbrace :: r)).takeWhile isSpace = w2 := by
      rw [takeWhile_append_of_all _ hw2, takeWhile_head_false _ (by decide), List.append_nil]
    have h6 : (w2 ++ (rbrace :: rbrace :: r)).dropWhile isSpace = rbrace :: rbrace :: r := by
      rw [dropWhile_append_of_all _ hw2, dropWhile_head_false _ (by decide)]
    have h7 : stripPrefix [rbrace, rbrace] (rbrace :: rbrace :: r) = some r := by
      rw [stripPrefix_eq_some]; rfl
    unfold matchVar
    rw [hstrip]
    simp only [h1, h2, h3, h4, h5, h6, h7]
    simp [varRef]
  nonempty := by
    rintro t g ⟨w1, w2, -, -, -, rfl⟩
    simp [varRef]

theorem matchEsc_recognises : Recognises matchEsc IsEscRef where
  sound := by
    intro s t g h
    unfold matchEsc at h
    split at h
    · cases h
    · rename_i T hT
      rw [stripPrefix_eq_some] at hT
      simp only at h
      split_ifs at h with hn
      split at h
      · cases h
      · rename_i r hr
        rw [stripPrefix_eq_some] at hr
        simp only [Option.some.injEq, Prod.mk.injEq] at h
        obtain ⟨ht, hg⟩ := h
        have e1 := List.takeWhile_append_dropWhile isNameChar T
        refine ⟨⟨⟨?_, ?_⟩, ?_⟩, r, ?_⟩
        · rw [← hg]; exact hn
        · rw [← hg]; exact fun c hc => List.mem_takeWhile_imp hc
        · rw [← ht, ← hg]; rfl
        · rw [hT, ← ht]
          conv_lhs => rw [← e1, hr]
          simp [List.append_assoc]
  complete := by
    rintro t g r ⟨⟨hg, hgn⟩, rfl⟩
    have hstrip : stripPrefix [lbrace, lbrace, bang] (escRef g ++ r)
        = some (g ++ (rbrace :: rbrace :: r)) := by
      rw [stripPrefix_eq_some]; simp [escRef]
    have h1 : (g ++ (rbrace :: rbrace :: r)).takeWhile isNameChar = g := by
      rw [takeWhile_append_of_all _ hgn, takeWhile_head_false _ (by decide), List.append_nil]
    have h2 : (g ++ (rbrace :: rbrace :: r)).dropWhile isNameChar = rbrace :: rbrace :: r := by
      rw [dropWhile_append_of_all _ hgn, dropWhile_head_false _ (by decide)]
    have h3 : stripPrefix [rbrace, rbrace] (rbrace :: rbrace :: r) = some r := by
      rw [stripPrefix_eq_some]; rfl
    unfold matchEsc
    rw [hstrip]
    simp only [h1, h2, h3]
    simp [escRef, hg]
  nonempty := by
    rintro t g ⟨-, rfl⟩
    simp [escRef]

theorem matchPlaceholder_recognises : Recognises matchPlaceholder IsPlaceholder where
  sound := by
    intro s t g h
    unfold matchPlaceholder at h
    split at h
    · cases h
    · rename_i T hT
      rw [stripPrefix_eq_some] at hT
      simp only at h
      split_ifs at h with hn
      split at h
      · cases h
      · rename_i r hr
        rw [stripPrefix_eq_some] at hr
        simp only [Option.some.injEq, Prod.mk.injEq] at h
        obtain ⟨ht, hg⟩ := h
        have e1 := List.takeWhile_append_dropWhile isDigit T
        refine ⟨⟨?_, ?_, ?_⟩, r, ?_⟩
        · rw [← hg]; exact hn
        · rw [← hg]; exact fun c hc => List.mem_takeWhile_imp hc
        · rw [← ht, ← hg]
        · rw [hT, ← ht]
          conv_lhs => rw [← e1, hr]
          simp [List.append_assoc]
  complete := by
    rintro t g r ⟨hg, hgn, rfl⟩
    have hstrip : stripPrefix (0 :: escTag) ((0 :: escTag ++ g ++ [0]) ++ r)
        = some (g ++ (0 :: r)) := by
      rw [stripPrefix_eq_some]; simp
    have h1 : (g ++ (0 :: r)).takeWhile isDigit = g := by
      rw [takeWhile_append_of_all _ hgn, takeWhile_head_false _ (by decide), List.append_nil]
    have h2 : (g ++ (0 :: r)).dropWhile isDigit = 0 :: r := by
      rw [dropWhile_append_of_all _ hgn, dropWhile_head_false _ (by decide)]
    have h3 : stripPrefix [0] (0 :: r) = some r := by
      rw [stripPrefix_eq_some]; rfl
    unfold matchPlaceholder
    rw [hstrip]
    simp only [h1, h2, h3]
    simp [hg]
  nonempty := by
    rintro t g ⟨-, -, rfl⟩
    simp

/-! ## Global scans -/

theorem pieces_skip (m : JSString → Option (JSString × JSString)) (pre s : JSString) :
    pieces m (pre ++ s) pre.length = pieces m s 0 := by
  induction pre with
  | nil => rfl
  | cons a pre ih => simpa [pieces] using ih

theorem pieces_lit {m : JSString → Option (JSString × JSString)} {c : Nat} {cs : JSString}
    (h : m (c :: cs) = none) : pieces m (c :: cs) 0 = Piece.lit c :: pieces m cs 0 := by
  simp [pieces, h]

theorem pieces_hit {m : JSString → Option (JSString × JSString)}
    {Pat : JSString → JSString → Prop} (hm : Recognises m Pat) {t g : JSString}
    (h : Pat t g) (r : JSString) : pieces m (t ++ r) 0 = Piece.hit t g :: pieces m r 0 := by
  obtain ⟨c, t', rfl⟩ := List.exists_cons_of_ne_nil (hm.nonempty h)
  have hc := hm.complete r h
  rw [List.cons_append] at hc ⊢
  simp only [pieces, hc, List.length_cons, Nat.add_sub_cancel, pieces_skip]

/-- Induction along a global scan: a code unit where the matcher fails, or a
whole match, is consumed at each step. -/
theorem scan_induction {m : JSString → Option (JSString × JSString)}
    {Pat : JSString → JSString → Prop} (hm : Recognises m Pat) {P : JSString → Prop}
    (nil : P [])
    (lit : ∀ c cs, m (c :: cs) = none → P cs → P (c :: cs))
    (hit : ∀ t g r, Pat t g → P r → P (t ++ r)) : ∀ s, P s := by
  intro s
  generalize hn : s.length = n
  induction n using Nat.strong_induction_on generalizing s with
  | _ n ih =>
    cases s with
    | nil => exact nil
    | cons c cs =>
      cases hmc : m (c :: cs) with
      | none => exact lit c cs hmc (ih cs.length (by simp [← hn]) cs rfl)
      | some tg =>
        obtain ⟨t, g⟩ := tg
        obtain ⟨hp, r, hr⟩ := hm.sound hmc
        rw [hr]
        have hpos : 0 < t.length := List.length_pos.mpr (hm.nonempty hp)
        have hlen : (c :: cs).length = t.length + r.length := by rw [hr]; simp
        exact hit t g r hp (ih r.length (by omega) r rfl)

theorem pieces_text {m : JSString → Option (JSString × JSString)}
    {Pat : JSString → JSString → Prop} (hm : Recognises m Pat) (s : JSString) :
    ((pieces m s 0).map Piece.text).flatten = s := by
  refine scan_induction (P := fun s => ((pieces m s 0).map Piece.text).flatten = s) hm ?_ ?_ ?_ s
  · rfl
  · intro c cs h ih
    rw [pieces_lit h]
    simp [Piece.text, ih]
  · intro t g r h ih
    rw [pieces_hit hm h]
    simp [Piece.text, ih]

theorem mem_pieces_hit {m : JSString → Option (JSString × JSString)}
    {Pat : JSString → JSString → Prop} (hm : Recognises m Pat) {t g : JSString} (s : JSString) :
    Piece.hit t g ∈ pieces m s 0 → Pat t g ∧ ∃ pre r, s = pre ++ t ++ r := by
  refine scan_induction
    (P := fun s => Piece.hit t g ∈ pieces m s 0 → Pat t g ∧ ∃ pre r, s = pre ++ t ++ r)
    hm ?_ ?_ ?_ s
  · simp [pieces]
  · intro c cs h ih hmem
    rw [pieces_lit h] at hmem
    simp only [List.mem_cons, reduceCtorEq, false_or] at hmem
    obtain ⟨hp, pre, r, rfl⟩ := ih hmem
    exact ⟨hp, c :: pre, r, by simp⟩
  · intro t' g' r h ih hmem
    rw [pieces_hit hm h] at hmem
    simp only [List.mem_cons, Piece.hit.injEq] at hmem
    rcases hmem with ⟨rfl, rfl⟩ | hmem
    · exact ⟨h, [], r, by simp⟩
    · obtain ⟨hp, pre, r', rfl⟩ := ih hmem
      exact ⟨hp, t' ++ pre, r', by simp⟩

theorem mem_pieces_lit {m : JSString → Option (JSString × JSString)} {c : Nat} (s : JSString)
    (k : Nat) : Piece.lit c ∈ pieces m s k → c ∈ s := by
  induction s generalizing k with
  | nil => simp [pieces]
  | cons a s ih =>
    cases k with
    | succ k =>
      intro h
      simp only [pieces] at h
      exact List.mem_cons_of_mem _ (ih k h)
    | zero =>
      intro h
      simp only [pieces] at h
      split at h
      · simp only [List.mem_cons, reduceCtorEq, false_or] at h
        exact List.mem_cons_of_mem _ (ih _ h)
      · simp only [List.mem_cons, Piece.lit.injEq] at h
        rcases h with rfl | h
        · exact List.mem_cons_self _ _
        · exact List.mem_cons_of_mem _ (ih _ h)

/-- Code units on which the matcher cannot start are copied by the scan. -/
theorem pieces_lits {m : JSString → Option (JSString × JSString)} (x y : JSString)
    (h : ∀ c ∈ x, ∀ cs, m (c :: cs) = none) :
    pieces m (x ++ y) 0 = x.map Piece.lit ++ pieces m y 0 := by
  induction x with
  | nil => rfl
  | cons a x ih =>
    rw [List.cons_append, pieces_lit (h a (List.mem_cons_self _ _) _),
      ih fun c hc => h c (List.mem_cons_of_mem _ hc)]
    rfl

/-- A scan falls apart at a point that no match can straddle. -/
theorem pieces_cut {m : JSString → Option (JSString × JSString)}
    {Pat : JSString → JSString → Prop} (hm : Recognises m Pat) (z : JSString)
    (hcut : ∀ t g r a, Pat t g → a ≠ [] → t ++ r = a ++ z → ∃ b, a = t ++ b) (x : JSString) :
    pieces m (x ++ z) 0 = pieces m x 0 ++ pieces m z 0 := by
  refine scan_induction (P := fun x => pieces m (x ++ z) 0 = pieces m x 0 ++ pieces m z 0)
    hm ?_ ?_ ?_ x
  · simp [pieces]
  · intro c cs h ih
    have hnone : m (c :: (cs ++ z)) = none := by
      cases hmc : m (c :: (cs ++ z)) with
      | none => rfl
      | some tg =>
        obtain ⟨t, g⟩ := tg
        obtain ⟨hp, r, hr⟩ := hm.sound hmc
        obtain ⟨b, hb⟩ := hcut t g r (c :: cs) hp (by simp) (by rw [← hr]; rfl)
        rw [hb, hm.complete b hp] at h
        cases h
    rw [List.cons_append, pieces_lit hnone, pieces_lit h, ih]
    rfl
  · intro t g r h ih
    rw [List.append_assoc, pieces_hit hm h, pieces_hit hm h, ih]
    rfl

/-! ## `normalizeStringSet` -/

theorem mem_setAdd {s : List JSString} {k x : JSString} : x ∈ setAdd s k ↔ x ∈ s ∨ x = k := by
  unfold setAdd
  split_ifs with h
  · constructor
    · exact Or.inl
    · rintro (h' | rfl)
      · exact h'
      · exact h
  · simp

theorem nodup_setAdd {s : List JSString} (k : JSString) (h : s.Nodup) : (setAdd s k).Nodup := by
  unfold setAdd
  split_ifs with hk
  · exact h
  · exact List.Nodup.append h (List.nodup_singleton k) (by simpa using hk)

theorem mem_foldl_setAdd {x : JSString} (l acc : List JSString) :
    x ∈ l.foldl setAdd acc ↔ x ∈ acc ∨ x ∈ l := by
  induction l generalizing acc with
  | nil => simp
  | cons a l ih => simp [ih, mem_setAdd, or_assoc, eq_comm]

theorem nodup_foldl_setAdd (l acc : List JSString) (h : acc.Nodup) :
    (l.foldl setAdd acc).Nodup := by
  induction l generalizing acc with
  | nil => exact h
  | cons a l ih => exact ih _ (nodup_setAdd a h)

theorem mem_normalized {x : JSString} (arr : List JSString) :
    x ∈ (normalizeStringSet arr).getD [] ↔ x ∈ arr := by
  simp [normalizeStringSet, jsSort, newSet, List.mem_insertionSort, mem_foldl_setAdd]

theorem nodup_normalized (arr : List JSString) : ((normalizeStringSet arr).getD []).Nodup := by
  simp only [normalizeStringSet, jsSort, newSet, Option.getD_some]
  exact (List.perm_insertionSort _ _).nodup_iff.mpr (nodup_foldl_setAdd _ _ List.nodup_nil)

theorem sorted_normalized (arr : List JSString) :
    List.Sorted (· < ·) ((normalizeStringSet arr).getD []) := by
  have h := nodup_normalized arr
  simp only [normalizeStringSet, jsSort, newSet, Option.getD_some] at h ⊢
  exact (List.sorted_insertionSort (· ≤ ·) _).lt_of_le h

theorem normalized_congr {a b : List JSString} (h : ∀ x, x ∈ a ↔ x ∈ b) :
    (normalizeStringSet a).getD [] = (normalizeStringSet b).getD [] := by
  have hp : ((normalizeStringSet a).getD []).Perm ((normalizeStringSet b).getD []) :=
    (List.perm_ext_iff_of_nodup (nodup_normalized a) (nodup_normalized b)).mpr fun x => by
      rw [mem_normalized, mem_normalized, h]
  exact List.eq_of_perm_of_sorted hp (sorted_normalized a) (sorted_normalized b)

/-! ## `computeMissing` -/

theorem mem_addPresent {x : JSString} (o : JSObject) (present : List JSString) :
    x ∈ addPresent present o ↔ x ∈ present ∨ HasValue o x := by
  unfold addPresent HasValue
  generalize o.entries = es
  induction es generalizing present with
  | nil => simp
  | cons kv es ih =>
    obtain ⟨k, v⟩ := kv
    simp only [List.foldl_cons, ih, List.mem_cons, Prod.mk.injEq]
    cases hv : isNullish v
    · simp only [Bool.false_eq_true, ↓reduceIte, mem_setAdd]
      constructor
      · rintro ((h | rfl) | ⟨w, h, hw⟩)
        · exact Or.inl h
        · exact Or.inr ⟨v, Or.inl ⟨rfl, rfl⟩, hv⟩
        · exact Or.inr ⟨w, Or.inr h, hw⟩
      · rintro (h | ⟨w, (⟨rfl, rfl⟩ | h), hw⟩)
        · exact Or.inl (Or.inl h)
        · exact Or.inl (Or.inr rfl)
        · exact Or.inr ⟨w, h, hw⟩
    · simp only [↓reduceIte]
      constructor
      · rintro (h | ⟨w, h, hw⟩)
        · exact Or.inl h
        · exact Or.inr ⟨w, Or.inr h, hw⟩
      · rintro (h | ⟨w, (⟨rfl, rfl⟩ | h), hw⟩)
        · exact Or.inl h
        · rw [hv] at hw; cases hw
        · exact Or.inr ⟨w, h, hw⟩

theorem mem_computeMissing {n : JSString} (extracted : List JSString) (vars defaults : JSObject) :
    n ∈ computeMissing extracted vars defaults ↔
      n ∈ extracted ∧ ¬ HasValue vars n ∧ ¬ HasValue defaults n := by
  unfold computeMissing
  simp only [mem_normalized, List.mem_filter, Bool.not_eq_true', List.contains_eq_any_beq,
    List.any_eq_false, beq_iff_eq]
  constructor
  · rintro ⟨h1, h2⟩
    refine ⟨h1, fun hv => ?_, fun hd => ?_⟩
    · exact h2 n ((mem_addPresent _ _).mpr (Or.inl ((mem_addPresent _ _).mpr (Or.inr hv)))) rfl
    · exact h2 n ((mem_addPresent _ _).mpr (Or.inr hd)) rfl
  · rintro ⟨h1, h2, h3⟩
    refine ⟨h1, fun x hx hxn => ?_⟩
    subst hxn
    rcases (mem_addPresent _ _).mp hx with hx | hx
    · rcases (mem_addPresent _ _).mp hx with hx | hx
      · cases hx
      · exact h2 hx
    · exact h3 hx

/-! ## `parseJsonFile` -/

theorem prefix2_iff (a b : Nat) (buf : List Nat) :
    (buf.length ≥ 2 ∧ buf.get? 0 = some a ∧ buf.get? 1 = some b) ↔ [a, b] <+: buf := by
  rcases buf with _ | ⟨x, _ | ⟨y, r⟩⟩
  · simp
  · simp
  · simp only [List.length_cons, List.get?_cons_zero, List.get?_cons_succ, Option.some.injEq,
      List.cons_prefix_cons, List.nil_prefix, and_true]
    omega

theorem prefix3_iff (a b c : Nat) (buf : List Nat) :
    (buf.length ≥ 3 ∧ buf.get? 0 = some a ∧ buf.get? 1 = some b ∧ buf.get? 2 = some c) ↔
      [a, b, c] <+: buf := by
  rcases buf with _ | ⟨x, _ | ⟨y, _ | ⟨z, r⟩⟩⟩
  · simp
  · simp
  · simp
  · simp only [List.length_cons, List.get?_cons_zero, List.get?_cons_succ, Option.some.injEq,
      List.cons_prefix_cons, List.nil_prefix, and_true]
    omega

theorem prefix4_iff (a b c d : Nat) (buf : List Nat) :
    (buf.length ≥ 4 ∧ buf.get? 0 = some a ∧ buf.get? 1 = some b ∧ buf.get? 2 = some c ∧
      buf.get? 3 = some d) ↔ [a, b, c, d] <+: buf := by
  rcases buf with _ | ⟨x, _ | ⟨y, _ | ⟨z, _ | ⟨w, r⟩⟩⟩⟩
  · simp
  · simp
  · simp
  · simp
  · simp only [List.length_cons, List.get?_cons_zero, List.get?_cons_succ, Option.some.injEq,
      List.cons_prefix_cons, List.nil_prefix, and_true]
    omega

theorem parseJsonFile_eq {ε α : Type} (jsonParse : List Nat → Except ε α) (buf : List Nat) :
    parseJsonFile jsonParse buf =
      if bomUtf8 <+: buf then Except.error (LoadError.encoding msgUtf8Bom)
      else if bomUtf32BE <+: buf then Except.error (LoadError.encoding msgUtf32BE)
      else if bomUtf32LE <+: buf then Except.error (LoadError.encoding msgUtf32LE)
      else if bomUtf16BE <+: buf then Except.error (LoadError.encoding msgUtf16BE)
      else if bomUtf16LE <+: buf then Except.error (LoadError.encoding msgUtf16LE)
      else liftParse (jsonParse buf) := by
  unfold parseJsonFile liftParse bomUtf8 bomUtf32BE bomUtf32LE bomUtf16BE bomUtf16LE
  simp only [prefix2_iff, prefix3_iff, prefix4_iff]

theorem utf32LE_utf16LE {buf : List Nat} (h : bomUtf32LE <+: buf) : bomUtf16LE <+: buf := by
  obtain ⟨r, rfl⟩ := h
  exact ⟨0 :: 0 :: r, rfl⟩

theorem bom_disjoint (buf : List Nat) :
    (bomUtf8 <+: buf → ¬ bomUtf32BE <+: buf ∧ ¬ bomUtf32LE <+: buf ∧ ¬ bomUtf16BE <+: buf ∧
      ¬ bomUtf16LE <+: buf) ∧
    (bomUtf32BE <+: buf → ¬ bomUtf32LE <+: buf ∧ ¬ bomUtf16BE <+: buf ∧ ¬ bomUtf16LE <+: buf) ∧
    (bomUtf16BE <+: buf → ¬ bomUtf32LE <+: buf ∧ ¬ bomUtf16LE <+: buf) := by
  unfold bomUtf8 bomUtf32BE bomUtf32LE bomUtf16BE bomUtf16LE
  rcases buf with _ | ⟨x, _ | ⟨y, r⟩⟩
  · simp
  · simp
  · simp only [List.cons_prefix_cons]
    omega

/-! ## Matches of the two reference forms never overlap -/

theorem isVarRef_head {t g : JSString} (h : IsVarRef t g) :
    ∃ c body, t = lbrace :: lbrace :: c :: body ∧ (isSpace c = true ∨ isNameChar c = true) ∧
      lbrace ∉ c :: body := by
  obtain ⟨w1, w2, hw1, hw2, ⟨hg, hgn⟩, rfl⟩ := h
  have hno : lbrace ∉ w1 ++ g ++ w2 ++ [rbrace, rbrace] := by
    simp only [List.mem_append, List.mem_cons, List.mem_singleton, not_or]
    refine ⟨⟨⟨fun h => (isSpace_ne (hw1 _ h)).2.1 rfl, fun h => (isName_ne (hgn _ h)).2.1 rfl⟩,
      fun h => (isSpace_ne (hw2 _ h)).2.1 rfl⟩, by decide, by decide, List.not_mem_nil _⟩
  obtain ⟨c, g', rfl⟩ := List.exists_cons_of_ne_nil hg
  cases w1 with
  | nil =>
    refine ⟨c, g' ++ w2 ++ [rbrace, rbrace], by simp [varRef],
      Or.inr (hgn c (List.mem_cons_self _ _)), by simpa using hno⟩
  | cons a w =>
    refine ⟨a, w ++ (c :: g') ++ w2 ++ [rbrace, rbrace], by simp [varRef],
      Or.inl (hw1 a (List.mem_cons_self _ _)), by simpa using hno⟩

theorem isVarRef_braced {t g : JSString} (h : IsVarRef t g) : Braced t := by
  obtain ⟨c, body, rfl, -, hno⟩ := isVarRef_head h
  exact ⟨c :: body, rfl, hno, by simp⟩

theorem isEscRef_braced {t g : JSString} (h : IsEscRef t g) : Braced t := by
  obtain ⟨⟨-, hgn⟩, rfl⟩ := h
  refine ⟨bang :: g ++ [rbrace, rbrace], by simp [escRef], ?_, by simp⟩
  simp only [List.cons_append, List.mem_cons, List.mem_append, List.mem_singleton, not_or]
  exact ⟨by decide, fun h => (isName_ne (hgn _ h)).2.1 rfl, by decide, by decide,
    List.not_mem_nil _⟩

/-- A braced text that starts before another `{{` ends before it. -/
theorem braced_cut {t : JSString} (ht : Braced t) {r a x : JSString} (ha : a ≠ [])
    (h : t ++ r = a ++ lbrace :: lbrace :: x) : ∃ b, a = t ++ b := by
  obtain ⟨body, rfl, hno, hne⟩ := ht
  obtain ⟨a0, a1, rfl⟩ := List.exists_cons_of_ne_nil ha
  simp only [List.cons_append, List.cons.injEq] at h
  obtain ⟨rfl, h⟩ := h
  cases a1 with
  | nil =>
    simp only [List.nil_append, List.cons.injEq, true_and] at h
    obtain ⟨b0, b', rfl⟩ := List.exists_cons_of_ne_nil hne
    simp only [List.cons_append, List.cons.injEq] at h
    exact absurd (List.mem_cons_self _ _) (h.1 ▸ hno)
  | cons a1h a2 =>
    simp only [List.cons_append, List.cons.injEq] at h
    obtain ⟨rfl, h⟩ := h
    rcases List.append_eq_append_iff.mp h with ⟨a', ha', -⟩ | ⟨c', hc', hx⟩
    · exact ⟨a', by simp [ha']⟩
    · cases c' with
      | nil => exact ⟨[], by simp [hc']⟩
      | cons c0 c'' =>
        simp only [List.cons_append, List.cons.injEq] at hx
        exact absurd (hc' ▸ List.mem_append_right _ (hx.1 ▸ List.mem_cons_self _ _)) hno

/-- The scan finds an instance of a braced pattern wherever it stands. -/
theorem pieces_split {m : JSString → Option (JSString × JSString)}
    {Pat : JSString → JSString → Prop} (hm : Recognises m Pat)
    (hb : ∀ t g, Pat t g → Braced t) {t g : JSString} (h : Pat t g) (x y : JSString) :
    pieces m (x ++ (t ++ y)) 0 = pieces m x 0 ++ Piece.hit t g :: pieces m y 0 := by
  obtain ⟨body, rfl, -, -⟩ := hb t g h
  have e : (lbrace :: lbrace :: body) ++ y = lbrace :: lbrace :: (body ++ y) := rfl
  rw [e, pieces_cut hm _ (fun t' g' r a hp ha he => braced_cut (hb t' g' hp) ha he) x, ← e,
    pieces_hit hm h]

theorem mem_matchAllGroups {m : JSString → Option (JSString × JSString)} {g : JSString}
    (s : JSString) : g ∈ matchAllGroups m s ↔ ∃ t, Piece.hit t g ∈ pieces m s 0 := by
  unfold matchAllGroups
  rw [List.mem_filterMap]
  constructor
  · rintro ⟨p, hp, hpg⟩
    cases p with
    | lit c => cases hpg
    | hit t g' =>
      simp only [Option.some.injEq] at hpg
      exact ⟨t, hpg ▸ hp⟩
  · rintro ⟨t, ht⟩
    exact ⟨Piece.hit t g, ht, rfl⟩

/-- A name is captured exactly when the content holds a reference to it. -/
theorem mem_matchAllGroups_matchVar {n : JSString} (C : JSString) :
    n ∈ matchAllGroups matchVar C ↔
      IsName n ∧ ∃ pre w1 w2 post, IsBlank w1 ∧ IsBlank w2 ∧ C = pre ++ varRef w1 n w2 ++ post := by
  rw [mem_matchAllGroups]
  constructor
  · rintro ⟨t, ht⟩
    obtain ⟨⟨w1, w2, hw1, hw2, hn, rfl⟩, pre, r, hC⟩ := mem_pieces_hit matchVar_recognises C ht
    exact ⟨hn, pre, w1, w2, r, hw1, hw2, hC⟩
  · rintro ⟨hn, pre, w1, w2, post, hw1, hw2, rfl⟩
    have hp : IsVarRef (varRef w1 n w2) n := ⟨w1, w2, hw1, hw2, hn, rfl⟩
    refine ⟨varRef w1 n w2, ?_⟩
    rw [List.append_assoc, pieces_split matchVar_recognises (fun _ _ => isVarRef_braced) hp]
    simp

theorem extractVariables_escRef {n : JSString} (hn : IsName n) : extractVariables (escRef n) = [] := by
  rw [List.eq_nil_iff_forall_not_mem]
  intro x hx
  obtain ⟨-, pre, w1, w2, post, hw1, hw2, hC⟩ :=
    (mem_matchAllGroups_matchVar _).mp ((mem_normalized _).mp hx)
  obtain ⟨hxn, hxc⟩ := ((mem_matchAllGroups_matchVar (n := x) _).mp ((mem_normalized _).mp hx)).1
  obtain ⟨c, body, hcb, hc, -⟩ := isVarRef_head (⟨w1, w2, hw1, hw2, ⟨hxn, hxc⟩, rfl⟩ :
    IsVarRef (varRef w1 x w2) x)
  rw [hcb] at hC
  have hnb : lbrace ∉ bang :: (n ++ [rbrace, rbrace]) := by
    simp only [List.mem_cons, List.mem_append, List.mem_singleton, not_or]
    exact ⟨by decide, fun h => (isName_ne (hn.2 _ h)).2.1 rfl, by decide, by decide,
      List.not_mem_nil _⟩
  cases pre with
  | nil =>
    simp only [escRef, List.cons_append, List.nil_append, List.cons.injEq, true_and] at hC
    rcases hc with hc | hc
    · exact (isSpace_ne hc).2.2.2 hC.1.symm
    · exact (isName_ne hc).2.2.2 hC.1.symm
  | cons p pre =>
    cases pre with
    | nil =>
      simp only [escRef, List.cons_append, List.nil_append, List.cons.injEq, true_and] at hC
      exact absurd hC.2.1 (by decide)
    | cons q pre =>
      simp only [escRef, List.cons_append, List.nil_append, List.cons.injEq] at hC
      apply hnb
      rw [hC.2.2]
      simp

/-! ## Objects -/

theorem lookup_of_mem {k : JSString} {v : Value} (es : List (JSString × Value))
    (hnd : (es.map Prod.fst).Nodup) (h : (k, v) ∈ es) : es.lookup k = some v := by
  induction es with
  | nil => cases h
  | cons kv es ih =>
    obtain ⟨k', v'⟩ := kv
    simp only [List.map_cons, List.nodup_cons, List.mem_map, not_exists, not_and] at hnd
    rw [List.lookup_cons]
    rcases List.mem_cons.mp h with heq | hmem
    · simp only [Prod.mk.injEq] at heq
      obtain ⟨rfl, rfl⟩ := heq
      simp
    · have hne : k ≠ k' := fun hk => hnd.1 (k, v) hmem hk
      have hb : (k == k') = false := by simpa using hne
      rw [hb]
      exact ih hnd.2 hmem

theorem mem_of_lookup {k : JSString} {v : Value} (es : List (JSString × Value))
    (h : es.lookup k = some v) : (k, v) ∈ es := by
  induction es with
  | nil => cases h
  | cons kv es ih =>
    obtain ⟨k', v'⟩ := kv
    rw [List.lookup_cons] at h
    cases hb : (k == k') with
    | true =>
      rw [hb] at h
      simp only [Option.some.injEq] at h
      have hk : k = k' := by simpa using hb
      rw [hk, h]
      exact List.mem_cons_self _ _
    | false =>
      rw [hb] at h
      exact List.mem_cons_of_mem _ (ih h)

theorem hasEntry_iff {o : JSObject} {k : JSString} {v : Value} :
    HasEntry o k v ↔ hasOwnProperty o k = true ∧ getProp o k = v := by
  unfold HasEntry hasOwnProperty getProp
  constructor
  · intro h
    rw [lookup_of_mem _ o.nodupKeys h]
    exact ⟨rfl, rfl⟩
  · rintro ⟨h1, h2⟩
    cases hl : o.entries.lookup k with
    | none => rw [hl] at h1; cases h1
    | some w =>
      rw [hl] at h2
      simp only [Option.getD_some] at h2
      exact h2 ▸ mem_of_lookup _ hl

theorem substituteCallback_vars {vars : JSObject} {key : JSString} {v : Value}
    (defaults : JSObject) (mtch : JSString) (h : HasEntry vars key v)
    (hv : isNullish v = false) : substituteCallback vars defaults mtch key = toJSString v := by
  obtain ⟨h1, h2⟩ := hasEntry_iff.mp h
  simp [substituteCallback, h1, h2, hv]

theorem substituteCallback_defaults {vars defaults : JSObject} {key : JSString} {d : Value}
    (mtch : JSString) (hvars : hasOwnProperty vars key = false) (h : HasEntry defaults key d)
    (hd : isNullish d = false) : substituteCallback vars defaults mtch key = toJSString d := by
  obtain ⟨h1, h2⟩ := hasEntry_iff.mp h
  simp [substituteCallback, hvars, h1, h2, hd]

/-! ## Replacement -/

theorem replaceAll_congr {m : JSString → Option (JSString × JSString)}
    {f f' : JSString → JSString → JSString} (s : JSString)
    (h : ∀ t g, Piece.hit t g ∈ pieces m s 0 → f t g = f' t g) :
    replaceAll m f s = replaceAll m f' s := by
  unfold replaceAll
  congr 1
  apply List.map_congr_left
  intro p hp
  cases p with
  | lit c => rfl
  | hit t g => exact h t g hp

theorem replaceAll_nil (m : JSString → Option (JSString × JSString))
    (f : JSString → JSString → JSString) : replaceAll m f [] = [] := rfl

theorem replaceAll_lits {m : JSString → Option (JSString × JSString)}
    (f : JSString → JSString → JSString) (x y : JSString)
    (h : ∀ c ∈ x, ∀ cs, m (c :: cs) = none) :
    replaceAll m f (x ++ y) = x ++ replaceAll m f y := by
  unfold replaceAll
  rw [pieces_lits x y h]
  simp only [List.map_append, List.map_map, List.flatten_append, List.append_cancel_right_eq]
  induction x with
  | nil => rfl
  | cons a x ih =>
    simp only [List.map_cons, List.flatten_cons, Function.comp_apply, List.singleton_append,
      List.cons.injEq, true_and]
    exact ih fun c hc => h c (List.mem_cons_of_mem _ hc)

theorem replaceAll_hit {m : JSString → Option (JSString × JSString)}
    {Pat : JSString → JSString → Prop} (hm : Recognises m Pat)
    (f : JSString → JSString → JSString) {t g : JSString} (h : Pat t g) (r : JSString) :
    replaceAll m f (t ++ r) = f t g ++ replaceAll m f r := by
  unfold replaceAll
  rw [pieces_hit hm h]
  simp

theorem replaceAll_cut {m : JSString → Option (JSString × JSString)}
    {Pat : JSString → JSString → Prop} (hm : Recognises m Pat)
    (f : JSString → JSString → JSString) (z : JSString)
    (hcut : ∀ t g r a, Pat t g → a ≠ [] → t ++ r = a ++ z → ∃ b, a = t ++ b) (x : JSString) :
    replaceAll m f (x ++ z) = replaceAll m f x ++ replaceAll m f z := by
  unfold replaceAll
  rw [pieces_cut hm z hcut x]
  simp

/-! ## Decimal indices -/

theorem digitsAux_spec (fuel n : Nat) (acc : JSString) (h : n < fuel) :
    ∃ ds, digitsAux fuel n acc = ds ++ acc ∧ ds ≠ [] ∧ (∀ c ∈ ds, isDigit c = true) ∧
      ∀ a0, ds.foldl (fun a c => a * 10 + (c - 48)) a0 = a0 * 10 ^ ds.length + n := by
  induction fuel generalizing n acc with
  | zero => omega
  | succ fuel ih =>
    unfold digitsAux
    split_ifs with hn
    · refine ⟨[48 + n], rfl, by simp, ?_, ?_⟩
      · intro c hc
        simp only [List.mem_singleton] at hc
        subst hc
        simp only [isDigit, Bool.and_eq_true, decide_eq_true_eq]
        omega
      · intro a0
        simp
    · obtain ⟨ds, hds, -, hdig, hfold⟩ := ih (n / 10) ((48 + n % 10) :: acc) (by omega)
      refine ⟨ds ++ [48 + n % 10], by simp [hds], by simp, ?_, ?_⟩
      · intro c hc
        rcases List.mem_append.mp hc with hc | hc
        · exact hdig c hc
        · simp only [List.mem_singleton] at hc
          subst hc
          simp only [isDigit, Bool.and_eq_true, decide_eq_true_eq]
          omega
      · intro a0
        simp only [List.foldl_append, hfold, List.foldl_cons, List.foldl_nil,
          Nat.add_sub_cancel_left, List.length_append, List.length_singleton, pow_succ]
        have := Nat.div_add_mod n 10
        ring_nf
        omega

theorem natToString_spec (n : Nat) :
    natToString n ≠ [] ∧ (∀ c ∈ natToString n, isDigit c = true) ∧
      parseDigits (natToString n) = n := by
  obtain ⟨ds, hds, hne, hdig, hfold⟩ := digitsAux_spec (n + 1) n [] (Nat.lt_succ_self n)
  unfold natToString parseDigits
  rw [hds, List.append_nil]
  exact ⟨hne, hdig, by simpa using hfold 0⟩

theorem isPlaceholder_placeholder (i : Nat) : IsPlaceholder (placeholder i) (natToString i) :=
  ⟨(natToString_spec i).1, (natToString_spec i).2.1, rfl⟩

theorem lbrace_not_mem_placeholder (i : Nat) : lbrace ∉ placeholder i := by
  unfold placeholder
  intro h
  simp only [List.cons_append, List.mem_cons, List.mem_append, List.mem_singleton] at h
  rcases h with h | (h | h) | h
  · exact absurd h (by decide)
  · exact absurd h (by decide)
  · exact (isDigit_ne ((natToString_spec i).2.1 _ h)).2 rfl
  · simp at h

/-! ## Where the matchers cannot start -/

theorem matchVar_none_of_ne {c : Nat} (cs : JSString) (h : c ≠ lbrace) :
    matchVar (c :: cs) = none := by
  cases hm : matchVar (c :: cs) with
  | none => rfl
  | some tg =>
    obtain ⟨t, g⟩ := tg
    obtain ⟨hp, r, hr⟩ := matchVar_recognises.sound hm
    obtain ⟨body, rfl, -, -⟩ := isVarRef_braced hp
    simp only [List.cons_append, List.cons.injEq] at hr
    exact absurd hr.1 h

theorem matchPlaceholder_none_of_ne {c : Nat} (cs : JSString) (h : c ≠ 0) :
    matchPlaceholder (c :: cs) = none := by
  cases hm : matchPlaceholder (c :: cs) with
  | none => rfl
  | some tg =>
    obtain ⟨t, g⟩ := tg
    obtain ⟨⟨-, -, rfl⟩, r, hr⟩ := matchPlaceholder_recognises.sound hm
    simp only [List.cons_append, List.cons.injEq] at hr
    exact absurd hr.1 h

theorem isVarRef_nul_free {t g : JSString} (h : IsVarRef t g) : 0 ∉ t := by
  obtain ⟨w1, w2, hw1, hw2, ⟨-, hgn⟩, rfl⟩ := h
  simp only [varRef, List.cons_append, List.nil_append, List.mem_cons, List.mem_append,
    List.mem_singleton, not_or]
  exact ⟨by decide, by decide, ⟨⟨fun h => (isSpace_ne (hw1 _ h)).1 rfl,
    fun h => (isName_ne (hgn _ h)).1 rfl⟩, fun h => (isSpace_ne (hw2 _ h)).1 rfl⟩,
    by decide, by decide, List.not_mem_nil _⟩

/-- A text without U+0000 that starts before a U+0000 ends before it. -/
theorem nul_cut {t r a z : JSString} (ht : 0 ∉ t) (h : t ++ r = a ++ 0 :: z) :
    ∃ b, a = t ++ b := by
  rcases List.append_eq_append_iff.mp h with ⟨a', ha', -⟩ | ⟨c', hc', hx⟩
  · exact ⟨a', ha'⟩
  · cases c' with
    | nil => exact ⟨[], by simp [hc']⟩
    | cons c0 c'' =>
      simp only [List.cons_append, List.cons.injEq] at hx
      exact absurd (hc' ▸ List.mem_append_right _ (hx.1 ▸ List.mem_cons_self _ _)) ht

/-! ## The escape protection pass -/

theorem protect_snd (toks : List Piece) (esc : List JSString) :
    (protect toks esc).2 = esc ++ toks.filterMap Piece.group? := by
  induction toks generalizing esc with
  | nil => simp [protect]
  | cons p ps ih =>
    cases p with
    | lit c => simp [protect, ih, Piece.group?]
    | hit t g => simp [protect, ih, Piece.group?]

theorem protect_lits (s : JSString) (esc : List JSString) :
    protect (s.map Piece.lit) esc = (s, esc) := by
  induction s with
  | nil => rfl
  | cons a s ih => simp [protect, ih]

/-- A scan without a match copies its input. -/
theorem pieces_eq_lits {m : JSString → Option (JSString × JSString)}
    {Pat : JSString → JSString → Prop} (hm : Recognises m Pat) (s : JSString)
    (h : ∀ t g, Piece.hit t g ∉ pieces m s 0) : pieces m s 0 = s.map Piece.lit := by
  revert h
  refine scan_induction
    (P := fun s => (∀ t g, Piece.hit t g ∉ pieces m s 0) → pieces m s 0 = s.map Piece.lit)
    hm ?_ ?_ ?_ s
  · intro _; rfl
  · intro c cs hc ih h
    rw [pieces_lit hc] at h ⊢
    rw [ih fun t g hmem => h t g (List.mem_cons_of_mem _ hmem)]
    rfl
  · intro t g r hp _ h
    rw [pieces_hit hm hp] at h
    exact absurd (List.mem_cons_self _ _) (h t g)

theorem prefix_protect {T : JSString} (toks : List Piece) (esc : List JSString) (h0 : 0 ∉ T)
    (h : T <+: (protect toks esc).1) : T <+: (toks.map Piece.text).flatten := by
  induction toks generalizing T esc with
  | nil => simpa [protect] using h
  | cons p ps ih =>
    cases p with
    | lit c =>
      simp only [protect, List.map_cons, List.flatten_cons, Piece.text, List.singleton_append]
        at h ⊢
      rcases List.prefix_cons_iff.mp h with rfl | ⟨T', rfl, hT'⟩
      · exact List.nil_prefix
      · exact List.cons_prefix_cons.mpr
          ⟨rfl, ih esc (fun hm => h0 (List.mem_cons_of_mem _ hm)) hT'⟩
    | hit t g =>
      simp only [protect, placeholder, List.cons_append] at h
      rcases List.prefix_cons_iff.mp h with rfl | ⟨T', rfl, -⟩
      · exact List.nil_prefix
      · exact absurd (List.mem_cons_self _ _) h0

theorem infix_of_append_of_head {c : Nat} {T pre x : JSString} (hpre : c ∉ pre)
    (h : (c :: T) <:+: pre ++ x) : (c :: T) <:+: x := by
  induction pre with
  | nil => exact h
  | cons a pre ih =>
    rw [List.cons_append, List.infix_cons_iff] at h
    rcases h with h | h
    · exact absurd (List.cons_prefix_cons.mp h).1 (fun e => hpre (e ▸ List.mem_cons_self _ _))
    · exact ih (fun hm => hpre (List.mem_cons_of_mem _ hm)) h

/-- A text that starts with `{` and has no U+0000 occurs in the protected
content only where it occurs in the content. -/
theorem infix_protect {T : JSString} (toks : List Piece) (esc : List JSString)
    (h0 : 0 ∉ lbrace :: T) (h : (lbrace :: T) <:+: (protect toks esc).1) :
    (lbrace :: T) <:+: (toks.map Piece.text).flatten := by
  induction toks generalizing esc with
  | nil => simp [protect] at h
  | cons p ps ih =>
    cases p with
    | lit c =>
      simp only [protect, List.map_cons, List.flatten_cons, Piece.text, List.singleton_append]
        at h ⊢
      rcases List.infix_cons_iff.mp h with h | h
      · have hp : (lbrace :: T) <+: ((Piece.lit c :: ps).map Piece.text).flatten :=
          prefix_protect (Piece.lit c :: ps) esc h0 (by simpa [protect] using h)
        simpa [Piece.text] using hp.isInfix
      · exact List.infix_cons (ih esc h)
    | hit t g =>
      simp only [protect, List.map_cons, List.flatten_cons, Piece.text] at h ⊢
      have h' := infix_of_append_of_head (lbrace_not_mem_placeholder _) h
      exact (ih _ h').trans (List.infix_append' t _ []) |> fun hx => by simpa using hx

/-! ## The substitution pass -/

theorem substitutePass_lits (vars defaults : JSObject) (x y : JSString) (h : lbrace ∉ x) :
    substitutePass vars defaults (x ++ y) = x ++ substitutePass vars defaults y :=
  replaceAll_lits _ x y fun _ hc cs => matchVar_none_of_ne cs fun e => h (e ▸ hc)

theorem substitutePass_nul (vars defaults : JSObject) (x z : JSString) :
    substitutePass vars defaults (x ++ 0 :: z) =
      substitutePass vars defaults x ++ 0 :: substitutePass vars defaults z := by
  unfold substitutePass
  rw [replaceAll_cut matchVar_recognises _ (0 :: z)
    (fun t g r a hp _ he => nul_cut (isVarRef_nul_free hp) he) x]
  congr 1

theorem substitutePass_placeholder (vars defaults : JSObject) (x y : JSString) (i : Nat) :
    substitutePass vars defaults (x ++ (placeholder i ++ y)) =
      substitutePass vars defaults x ++ (placeholder i ++ substitutePass vars defaults y) := by
  have hno : lbrace ∉ escTag ++ natToString i ++ [0] := fun h =>
    lbrace_not_mem_placeholder i (by unfold placeholder; exact List.mem_cons_of_mem _ (by simpa using h))
  have e : placeholder i ++ y = 0 :: ((escTag ++ natToString i ++ [0]) ++ y) := by
    simp [placeholder]
  rw [e, substitutePass_nul, substitutePass_lits _ _ _ _ hno]
  simp [placeholder]

theorem toJSString_nul_free {o : JSObject} (h : NulFreeValues o) {k : JSString} {v : Value}
    (hmem : (k, v) ∈ o.entries) : 0 ∉ toJSString v := by
  cases v with
  | str s => exact h k s hmem
  | num n =>
    have hd : 0 ∉ natToString n.natAbs := fun h0 =>
      (isDigit_ne ((natToString_spec n.natAbs).2.1 _ h0)).1 rfl
    simp only [toJSString]
    split_ifs
    · intro h0
      rcases List.mem_cons.mp h0 with h0 | h0
      · exact absurd h0 (by decide)
      · exact hd h0
    · exact hd
  | bool b => cases b <;> decide
  | null => decide
  | undefined => decide

theorem substitutePass_nul_free {vars defaults : JSObject} (hv : NulFreeValues vars)
    (hd : NulFreeValues defaults) (s : JSString) :
    0 ∉ s → 0 ∉ substitutePass vars defaults s := by
  refine scan_induction (P := fun s => 0 ∉ s → 0 ∉ substitutePass vars defaults s)
    matchVar_recognises ?_ ?_ ?_ s
  · intro h; exact h
  · intro c cs hc ih h
    have e : substitutePass vars defaults (c :: cs) = c :: substitutePass vars defaults cs := by
      unfold substitutePass replaceAll
      rw [pieces_lit hc]
      rfl
    rw [e]
    intro hm
    rcases List.mem_cons.mp hm with hm | hm
    · exact h (hm ▸ List.mem_cons_self _ _)
    · exact ih (fun h' => h (List.mem_cons_of_mem _ h')) hm
  · intro t g r hp ih h
    have e : substitutePass vars defaults (t ++ r) =
        substituteCallback vars defaults t g ++ substitutePass vars defaults r :=
      replaceAll_hit matchVar_recognises _ hp r
    rw [e]
    intro hm
    rcases List.mem_append.mp hm with hm | hm
    · unfold substituteCallback at hm
      simp only at hm
      split_ifs at hm with h1 h2 h3 h4
      · exact h (List.mem_append_left _ hm)
      · exact toJSString_nul_free hv (hasEntry_iff.mpr ⟨h1, rfl⟩) hm
      · exact h (List.mem_append_left _ hm)
      · exact toJSString_nul_free hd (hasEntry_iff.mpr ⟨h3, rfl⟩) hm
      · exact h (List.mem_append_left _ hm)
    · exact ih (fun h' => h (List.mem_append_right _ h')) hm

/-! ## The unescape pass -/

theorem unescapePass_lits (escaped : List JSString) (x y : JSString) (h : 0 ∉ x) :
    unescapePass escaped (x ++ y) = x ++ unescapePass escaped y :=
  replaceAll_lits _ x y fun _ hc cs => matchPlaceholder_none_of_ne cs fun e => h (e ▸ hc)

theorem unescapePass_nul_free (escaped : List JSString) (x : JSString) (h : 0 ∉ x) :
    unescapePass escaped x = x := by
  have := unescapePass_lits escaped x [] h
  simpa [unescapePass, replaceAll_nil] using this

theorem unescapePass_placeholder (escaped : List JSString) (i : Nat) (y : JSString) :
    unescapePass escaped (placeholder i ++ y) =
      unescapeCallback escaped (placeholder i) (natToString i) ++ unescapePass escaped y :=
  replaceAll_hit matchPlaceholder_recognises _ (isPlaceholder_placeholder i) y

theorem unescapeCallback_get {escaped : List JSString} {i : Nat} {name : JSString}
    (t : JSString) (h : escaped.get? i = some name) :
    unescapeCallback escaped t (natToString i) = varRef [] name [] := by
  unfold unescapeCallback
  rw [(natToString_spec i).2.2, h]
  simp [varRef]

/-! ## The three passes together -/

theorem renderPieces_append_hit (sub : JSString → JSString) (ta tb : List Piece)
    (seg t g : JSString) :
    renderPieces sub seg (ta ++ Piece.hit t g :: tb) =
      renderPieces sub seg ta ++ varRef [] g [] ++ renderPieces sub [] tb := by
  induction ta generalizing seg with
  | nil => simp [renderPieces]
  | cons p ps ih =>
    cases p with
    | lit c =>
      rw [List.cons_append]
      simp only [renderPieces]
      exact ih _
    | hit t' g' =>
      rw [List.cons_append]
      simp only [renderPieces]
      rw [ih]
      simp only [List.append_assoc]

theorem renderPieces_lits (sub : JSString → JSString) (seg s : JSString) :
    renderPieces sub seg (s.map Piece.lit) = sub (seg ++ s) := by
  induction s generalizing seg with
  | nil => simp [renderPieces]
  | cons a s ih => simp [renderPieces, ih]

/-- On content and values without U+0000 the unescape pass undoes the
protection pass around the substitution of each stretch of plain content. -/
theorem unescape_substitute_protect {vars defaults : JSObject} (hv : NulFreeValues vars)
    (hd : NulFreeValues defaults) (toks : List Piece) (seg : JSString) (esc : List JSString)
    (hseg : 0 ∉ seg) (hl : ∀ c, Piece.lit c ∈ toks → c ≠ 0) :
    unescapePass (protect toks esc).2
        (substitutePass vars defaults (seg ++ (protect toks esc).1)) =
      renderPieces (substitutePass vars defaults) seg toks := by
  induction toks generalizing seg esc with
  | nil =>
    simp only [protect, List.append_nil, renderPieces]
    exact unescapePass_nul_free _ _ (substitutePass_nul_free hv hd _ hseg)
  | cons p ps ih =>
    cases p with
    | lit c =>
      have hc : c ≠ 0 := hl c (List.mem_cons_self _ _)
      have hseg' : 0 ∉ seg ++ [c] := by
        simp only [List.mem_append, List.mem_singleton, not_or]
        exact ⟨hseg, fun h => hc h.symm⟩
      have h := ih (seg ++ [c]) esc hseg' fun c' h => hl c' (List.mem_cons_of_mem _ h)
      simp only [protect, renderPieces]
      rw [← h]
      simp
    | hit t g =>
      have hget : (protect ps (esc ++ [g])).2.get? esc.length = some g := by
        rw [protect_snd, List.append_assoc, List.get?_eq_getElem?,
          List.getElem?_append_right (le_refl _)]
        simp
      have h := ih [] (esc ++ [g]) (List.not_mem_nil _) fun c' h => hl c' (List.mem_cons_of_mem _ h)
      simp only [List.nil_append] at h
      simp only [protect, renderPieces, List.length_append, List.length_singleton,
        Nat.add_sub_cancel]
      rw [substitutePass_placeholder,
        unescapePass_lits _ _ _ (substitutePass_nul_free hv hd _ hseg), unescapePass_placeholder,
        unescapeCallback_get _ hget, h, List.append_assoc]

theorem renderContent_eq_renderPieces {vars defaults : JSObject} (hv : NulFreeValues vars)
    (hd : NulFreeValues defaults) (C : JSString) (hC : 0 ∉ C) :
    renderContent C vars defaults =
      renderPieces (substitutePass vars defaults) [] (pieces matchEsc C 0) := by
  have h := unescape_substitute_protect hv hd (pieces matchEsc C 0) [] [] (List.not_mem_nil _)
    fun c hc hc0 => hC (hc0 ▸ mem_pieces_lit C 0 hc)
  simpa [renderContent] using h

/-- Content without an escaped reference goes through the protection pass unchanged. -/
theorem pieces_matchEsc_of_not_contains {C : JSString} (h : ¬ ContainsEscRef C) :
    pieces matchEsc C 0 = C.map Piece.lit :=
  pieces_eq_lits matchEsc_recognises C fun t g hmem => by
    obtain ⟨⟨hg, rfl⟩, pre, r, hC⟩ := mem_pieces_hit matchEsc_recognises C hmem
    exact h ⟨pre, g, r, hg, hC⟩

theorem renderContent_of_not_contains {C : JSString} (h : ¬ ContainsEscRef C)
    (vars defaults : JSObject) :
    renderContent C vars defaults = unescapePass [] (substitutePass vars defaults C) := by
  simp [renderContent, pieces_matchEsc_of_not_contains h, protect_lits]

theorem substitutePass_varRef {t g : JSString} (vars defaults : JSObject) (h : IsVarRef t g)
    (pre post : JSString) :
    substitutePass vars defaults (pre ++ (t ++ post)) =
      substitutePass vars defaults pre ++ substituteCallback vars defaults t g ++
        substitutePass vars defaults post := by
  unfold substitutePass replaceAll
  rw [pieces_split matchVar_recognises (fun _ _ => isVarRef_braced) h]
  simp

theorem substitutePass_empty (C : JSString) : substitutePass emptyObject emptyObject C = C := by
  have e1 : replaceAll matchVar (substituteCallback emptyObject emptyObject) C =
      replaceAll matchVar (fun t _ => t) C := replaceAll_congr C fun t g _ => rfl
  have e2 : (fun p : Piece => match p with
      | Piece.lit c => [c]
      | Piece.hit t _ => t) = Piece.text := by
    funext p; cases p <;> rfl
  unfold substitutePass
  rw [e1]
  unfold replaceAll
  rw [e2]
  exact pieces_text matchVar_recognises C

theorem not_containsEscRef_of_bang {C : JSString} (h : bang ∉ C) : ¬ ContainsEscRef C := by
  rintro ⟨pre, x, post, -, rfl⟩
  exact h (by simp [escRef])

theorem bang_not_mem_varRef {w1 n w2 : JSString} (hw1 : IsBlank w1) (hw2 : IsBlank w2)
    (hn : IsName n) : bang ∉ varRef w1 n w2 := by
  intro h
  simp only [varRef, List.cons_append, List.nil_append, List.mem_cons, List.mem_append,
    List.mem_singleton] at h
  rcases h with h | h | ((h | h) | h) | h | h | h
  · exact absurd h (by decide)
  · exact absurd h (by decide)
  · exact (isSpace_ne (hw1 _ h)).2.2.2 rfl
  · exact (isName_ne (hn.2 _ h)).2.2.2 rfl
  · exact (isSpace_ne (hw2 _ h)).2.2.2 rfl
  · exact absurd h (by decide)
  · exact absurd h (by decide)
  · simp at h

theorem nulFreeValues_empty : NulFreeValues emptyObject := fun _ _ h => by
  simp [emptyObject] at h

theorem nulFreeValues_singleton {k s : JSString} (h : 0 ∉ s) :
    NulFreeValues (singleton k (Value.str s)) := fun k' s' hmem => by
  simp only [singleton, List.mem_singleton, Prod.mk.injEq, Value.str.injEq] at hmem
  rw [hmem.2]
  exact h

/-- With a non-null value in vars for every extracted name, the defaults play no part. -/
theorem renderContent_vars_only (C : JSString) (vars d1 d2 : JSObject)
    (h : ∀ n ∈ extractVariables C, HasValue vars n) :
    renderContent C vars d1 = renderContent C vars d2 := by
  unfold renderContent
  simp only
  congr 1
  apply replaceAll_congr
  intro t g hmem
  obtain ⟨hp, pre, r, hP⟩ := mem_pieces_hit matchVar_recognises _ hmem
  have hinf : t <:+: (protect (pieces matchEsc C 0) []).1 := ⟨pre, r, hP.symm⟩
  have h0 := isVarRef_nul_free hp
  obtain ⟨body, ht, -, -⟩ := isVarRef_braced hp
  subst ht
  have hC := infix_protect _ _ h0 hinf
  rw [pieces_text matchEsc_recognises] at hC
  obtain ⟨pre', post', hC'⟩ := hC
  obtain ⟨w1, w2, hw1, hw2, hn, ht⟩ := hp
  have hg : g ∈ extractVariables C :=
    (mem_normalized _).mpr ((mem_matchAllGroups_matchVar C).mpr
      ⟨hn, pre', w1, w2, post', hw1, hw2, by rw [← ht]; exact hC'.symm⟩)
  obtain ⟨v, hv, hnn⟩ := h g hg
  rw [substituteCallback_vars d1 _ hv hnn, substituteCallback_vars d2 _ hv hnn]

theorem substitutePass_single {t g : JSString} (vars defaults : JSObject) (h : IsVarRef t g) :
    substitutePass vars defaults t = substituteCallback vars defaults t g := by
  have := replaceAll_hit matchVar_recognises (substituteCallback vars defaults) h []
  simpa [substitutePass, replaceAll_nil] using this

/-! ## Whitespace inside a reference -/

theorem extractVariables_varRef {w1 n w2 : JSString} (hw1 : IsBlank w1) (hw2 : IsBlank w2)
    (hn : IsName n) : extractVariables (varRef w1 n w2) = [n] := by
  have hp : IsVarRef (varRef w1 n w2) n := ⟨w1, w2, hw1, hw2, hn, rfl⟩
  have h := pieces_hit matchVar_recognises hp []
  rw [List.append_nil] at h
  unfold extractVariables matchAllGroups
  rw [h]
  simp [pieces, normalizeStringSet, newSet, setAdd, jsSort]

/-- Whenever the replacer finds a value for the name, the blanks of the
reference play no part in the rendering. -/
theorem renderContent_whitespace_of_value {w1 n w2 : JSString} {vars defaults : JSObject}
    {v : Value} (hw1 : IsBlank w1) (hw2 : IsBlank w2) (hn : IsName n)
    (hres : HasEntry vars n v ∨ (hasOwnProperty vars n = false ∧ HasEntry defaults n v))
    (hnn : isNullish v = false) :
    substitutePass vars defaults (varRef w1 n w2) = toJSString v ∧
    renderContent (varRef w1 n w2) vars defaults =
      renderContent (varRef [] n []) vars defaults := by
  have hcb : ∀ t, substituteCallback vars defaults t n = toJSString v := fun t => by
    rcases hres with h | ⟨h1, h2⟩
    · exact substituteCallback_vars defaults t h hnn
    · exact substituteCallback_defaults t h1 h2 hnn
  have hb : IsBlank [] := fun c hc => absurd hc (List.not_mem_nil c)
  have e1 : substitutePass vars defaults (varRef w1 n w2) = toJSString v := by
    rw [substitutePass_single vars defaults ⟨w1, w2, hw1, hw2, hn, rfl⟩, hcb]
  have e2 : substitutePass vars defaults (varRef [] n []) = toJSString v := by
    rw [substitutePass_single vars defaults ⟨[], [], hb, hb, hn, rfl⟩, hcb]
  refine ⟨e1, ?_⟩
  rw [renderContent_of_not_contains (not_containsEscRef_of_bang (bang_not_mem_varRef hw1 hw2 hn)),
    renderContent_of_not_contains (not_containsEscRef_of_bang (bang_not_mem_varRef hb hb hn)),
    e1, e2]

/-! ## Missing names and the replacer -/

/-- A name without a non-null value in either map is left as written by the replacer. -/
theorem substituteCallback_of_missing {vars defaults : JSObject} {n : JSString}
    (hv : ¬ HasValue vars n) (hd : ¬ HasValue defaults n) (mtch : JSString) :
    substituteCallback vars defaults mtch n = mtch := by
  unfold substituteCallback
  simp only
  split_ifs with h1 h2 h3 h4
  · rfl
  · exact absurd ⟨getProp vars n, hasEntry_iff.mpr ⟨h1, rfl⟩, by simpa using h2⟩ hv
  · rfl
  · exact absurd ⟨getProp defaults n, hasEntry_iff.mpr ⟨h3, rfl⟩, by simpa using h4⟩ hd
  · rfl

/-- A null or undefined own property of vars makes the replacer return the
match, whatever the defaults hold. -/
theorem substituteCallback_of_nullish {vars : JSObject} {n : JSString} {v : Value}
    (defaults : JSObject) (mtch : JSString) (h : HasEntry vars n v) (hv : isNullish v = true) :
    substituteCallback vars defaults mtch n = mtch := by
  obtain ⟨h1, h2⟩ := hasEntry_iff.mp h
  simp [substituteCallback, h1, h2, hv]

theorem renderContent_varRef_unsubstituted {w1 n w2 : JSString} {vars defaults : JSObject}
    (hw1 : IsBlank w1) (hw2 : IsBlank w2) (hn : IsName n)
    (h : substituteCallback vars defaults (varRef w1 n w2) n = varRef w1 n w2) :
    renderContent (varRef w1 n w2) vars defaults = varRef w1 n w2 := by
  have hp : IsVarRef (varRef w1 n w2) n := ⟨w1, w2, hw1, hw2, hn, rfl⟩
  rw [renderContent_of_not_contains (not_containsEscRef_of_bang (bang_not_mem_varRef hw1 hw2 hn)),
    substitutePass_single vars defaults hp, h, unescapePass_nul_free _ _ (isVarRef_nul_free hp)]

/-! # Main results -/

/-- C1 (code defect). With vars `{a: null}` and defaults `{a: "x"}` the content
`{{a}}` is left as it is, although `"x"` is expected: the own property `a` of
vars stops the lookup before the defaults are consulted. The same holds for
every name and every default value, while a name that vars does not have is
rendered from the default. -/
theorem renderContent_null_in_vars_blocks_default :
    renderContent refA varsNullA defaultsAX = refA ∧
    renderContent refA varsNullA defaultsAX ≠ js "x" ∧
    renderContent refA emptyObject defaultsAX = js "x" ∧
    (∀ (n : JSString) (d : Value), IsName n →
      renderContent (varRef [] n []) (singleton n Value.null) (singleton n d) =
        varRef [] n []) := by
  refine ⟨by decide, by decide, by decide, fun n d hn => ?_⟩
  have hb : IsBlank [] := fun c hc => absurd hc (List.not_mem_nil c)
  exact renderContent_varRef_unsubstituted hb hb hn
    (substituteCallback_of_nullish _ _ (List.mem_singleton.mpr rfl) rfl)

/-- C2 (code defect). A name that `computeMissing` reports missing is always
left unsubstituted by the substitution pass of `renderContent`; the converse
fails: with vars `{a: null}` and defaults `{a: "x"}` the name `a` is extracted
from `{{a}}` and not reported missing, while the substitution pass finds no
value for it and leaves the reference in place. -/
theorem computeMissing_disagrees_with_renderContent :
    (∀ (n : JSString) (vars defaults : JSObject), IsName n →
      n ∈ computeMissing (extractVariables (varRef [] n [])) vars defaults →
        substitutePass vars defaults (varRef [] n []) = varRef [] n [] ∧
        renderContent (varRef [] n []) vars defaults = varRef [] n []) ∧
    extractVariables refA = [js "a"] ∧
    js "a" ∉ computeMissing (extractVariables refA) varsNullA defaultsAX ∧
    substitutePass varsNullA defaultsAX refA = refA ∧
    renderContent refA varsNullA defaultsAX = refA := by
  refine ⟨fun n vars defaults hn hmem => ?_, by decide, by decide, by decide, by decide⟩
  have hb : IsBlank [] := fun c hc => absurd hc (List.not_mem_nil c)
  obtain ⟨-, hv, hd⟩ := (mem_computeMissing _ _ _).mp hmem
  have hcb := substituteCallback_of_missing hv hd (varRef [] n [])
  exact ⟨by rw [substitutePass_single vars defaults ⟨[], [], hb, hb, hn, rfl⟩, hcb],
    renderContent_varRef_unsubstituted hb hb hn hcb⟩

/-- C3, counterexample. The content `\u0000PROMPTG_ESC_5{{!x}}` holds the
escaped reference `{{!x}}`, and its rendering is `PROMPTG_ESC_0\u0000`, without
`{{x}}`, whether or not `x` has a value; the same happens with the content
`{{a}}{{!x}}`, free of U+0000, when the value of `a` is `\u0000PROMPTG_ESC_5`. -/
theorem renderContent_escape_collision :
    IsName (js "x") ∧
    collidingContent = (0 :: escTag ++ js "5") ++ escRef (js "x") ++ [] ∧
    renderContent collidingContent emptyObject emptyObject = js "PROMPTG_ESC_0" ++ [0] ∧
    ¬ (varRef [] (js "x") [] <:+: renderContent collidingContent emptyObject emptyObject) ∧
    ¬ (varRef [] (js "x") [] <:+: renderContent collidingContent varsXV emptyObject) ∧
    refThenEscape = varRef [] (js "a") [] ++ escRef (js "x") ++ [] ∧
    0 ∉ refThenEscape ∧
    ¬ (varRef [] (js "x") [] <:+: renderContent refThenEscape varsCollidingA emptyObject) :=
  ⟨⟨by decide, by decide⟩, by decide, by decide, by decide, by decide, by decide, by decide,
    by decide⟩

/-- C3, amended. When neither the content nor any string value of the two
maps holds U+0000, an escaped reference `{{!x}}` is never substituted: the
rendering of `A{{!x}}B` is the rendering of `A`, the literal `{{x}}`, and the
rendering of `B`; in particular the output contains `{{x}}`. -/
theorem renderContent_escape_inviolable (A x B : JSString) (vars defaults : JSObject)
    (hx : IsName x) (hA : 0 ∉ A) (hB : 0 ∉ B)
    (hv : NulFreeValues vars) (hd : NulFreeValues defaults) :
    renderContent (A ++ escRef x ++ B) vars defaults =
      renderContent A vars defaults ++ varRef [] x [] ++ renderContent B vars defaults ∧
    varRef [] x [] <:+: renderContent (A ++ escRef x ++ B) vars defaults := by
  have hp : IsEscRef (escRef x) x := ⟨hx, rfl⟩
  have hC : 0 ∉ A ++ escRef x ++ B := by
    simp only [escRef, List.cons_append, List.nil_append, List.mem_append, List.mem_cons,
      List.mem_singleton, not_or]
    exact ⟨⟨hA, by decide, by decide, by decide, fun h => (isName_ne (hx.2 _ h)).1 rfl,
      by decide, by decide, List.not_mem_nil _⟩, hB⟩
  have e : renderContent (A ++ escRef x ++ B) vars defaults =
      renderContent A vars defaults ++ varRef [] x [] ++ renderContent B vars defaults := by
    rw [renderContent_eq_renderPieces hv hd _ hC, renderContent_eq_renderPieces hv hd _ hA,
      renderContent_eq_renderPieces hv hd _ hB, List.append_assoc,
      pieces_split matchEsc_recognises (fun _ _ => isEscRef_braced) hp,
      renderPieces_append_hit]
  exact ⟨e, e ▸ ⟨renderContent A vars defaults, renderContent B vars defaults, rfl⟩⟩

/-- C3, instance: `Hello {{!secret}} stays` with vars `{secret: "v"}`. -/
theorem renderContent_escape_inviolable_witness :
    renderContent (js "Hello " ++ escRef (js "secret") ++ js " stays") varsSecret emptyObject =
      renderContent (js "Hello ") varsSecret emptyObject ++ varRef [] (js "secret") [] ++
        renderContent (js " stays") varsSecret emptyObject ∧
    varRef [] (js "secret") [] <:+:
      renderContent (js "Hello " ++ escRef (js "secret") ++ js " stays") varsSecret emptyObject :=
  renderContent_escape_inviolable (js "Hello ") (js "secret") (js " stays") varsSecret
    emptyObject ⟨by decide, by decide⟩ (by decide) (by decide)
    (nulFreeValues_singleton (by decide)) nulFreeValues_empty

/-- C4, counterexample. The content `\u0000PROMPTG_ESC_0\u0000` holds no escaped
reference, the substitution pass leaves it unchanged, and it renders to the
empty string; the content `{{a}}` with the value `\u0000PROMPTG_ESC_0\u0000`
for `a` renders to the empty string as well, so the value does not appear. -/
theorem renderContent_placeholder_collision :
    ¬ ContainsEscRef (placeholder 0) ∧
    substitutePass emptyObject emptyObject (placeholder 0) = placeholder 0 ∧
    renderContent (placeholder 0) emptyObject emptyObject = [] ∧
    renderContent (placeholder 0) emptyObject emptyObject ≠ placeholder 0 ∧
    ¬ ContainsEscRef refA ∧
    substitutePass varsPlaceholderA emptyObject refA = placeholder 0 ∧
    renderContent refA varsPlaceholderA emptyObject = [] :=
  ⟨not_containsEscRef_of_bang (by decide), by decide, by decide, by decide,
    not_containsEscRef_of_bang (by decide), by decide, by decide⟩

/-- C4, amended. For content without an escaped reference, when neither the
content nor any string value of the two maps holds U+0000, the rendering is the
result of the substitution pass alone: around a reference that has a value it
is the substitution of what precedes, the string form of the value, and the
substitution of what follows; a reference to a name that is in neither map is
kept as written; and with empty maps the rendering is the content itself. -/
theorem renderContent_without_escapes (C : JSString) (vars defaults : JSObject)
    (hesc : ¬ ContainsEscRef C) (hC : 0 ∉ C)
    (hv : NulFreeValues vars) (hd : NulFreeValues defaults) :
    renderContent C vars defaults = substitutePass vars defaults C ∧
    renderContent C emptyObject emptyObject = C ∧
    (∀ pre w1 n w2 post v, C = pre ++ varRef w1 n w2 ++ post →
      IsBlank w1 → IsBlank w2 → IsName n →
      (HasEntry vars n v ∨ (hasOwnProperty vars n = false ∧ HasEntry defaults n v)) →
      isNullish v = false →
      renderContent C vars defaults =
        substitutePass vars defaults pre ++ toJSString v ++ substitutePass vars defaults post) ∧
    (∀ pre w1 n w2 post, C = pre ++ varRef w1 n w2 ++ post →
      IsBlank w1 → IsBlank w2 → IsName n →
      hasOwnProperty vars n = false → hasOwnProperty defaults n = false →
      renderContent C vars defaults =
        substitutePass vars defaults pre ++ varRef w1 n w2 ++
          substitutePass vars defaults post) := by
  have e : renderContent C vars defaults = substitutePass vars defaults C := by
    rw [renderContent_of_not_contains hesc,
      unescapePass_nul_free _ _ (substitutePass_nul_free hv hd _ hC)]
  refine ⟨e, ?_, ?_, ?_⟩
  · rw [renderContent_of_not_contains hesc, substitutePass_empty,
      unescapePass_nul_free _ _ hC]
  · intro pre w1 n w2 post v hsplit hw1 hw2 hn hres hnn
    have hp : IsVarRef (varRef w1 n w2) n := ⟨w1, w2, hw1, hw2, hn, rfl⟩
    rw [e, hsplit, List.append_assoc, substitutePass_varRef vars defaults hp]
    rcases hres with h | ⟨h1, h2⟩
    · rw [substituteCallback_vars defaults _ h hnn]
    · rw [substituteCallback_defaults _ h1 h2 hnn]
  · intro pre w1 n w2 post hsplit hw1 hw2 hn h1 h2
    have hp : IsVarRef (varRef w1 n w2) n := ⟨w1, w2, hw1, hw2, hn, rfl⟩
    rw [e, hsplit, List.append_assoc, substitutePass_varRef vars defaults hp]
    simp [substituteCallback, h1, h2]

/-- C4, instance: `Hello {{name}}.` with vars `{name: "World"}`. -/
theorem renderContent_without_escapes_witness :
    renderContent (js "Hello " ++ varRef [] (js "name") [] ++ js ".") varsNameWorld emptyObject =
      substitutePass varsNameWorld emptyObject
        (js "Hello " ++ varRef [] (js "name") [] ++ js ".") ∧
    renderContent (js "Hello " ++ varRef [] (js "name") [] ++ js ".") emptyObject emptyObject =
      js "Hello " ++ varRef [] (js "name") [] ++ js "." :=
  ⟨(renderContent_without_escapes (js "Hello " ++ varRef [] (js "name") [] ++ js ".")
      varsNameWorld emptyObject (not_containsEscRef_of_bang (by decide)) (by decide)
      (nulFreeValues_singleton (by decide)) nulFreeValues_empty).1,
    (renderContent_without_escapes (js "Hello " ++ varRef [] (js "name") [] ++ js ".")
      varsNameWorld emptyObject (not_containsEscRef_of_bang (by decide)) (by decide)
      (nulFreeValues_singleton (by decide)) nulFreeValues_empty).2.1⟩

/-- C5, counterexample. With empty vars and defaults
`{b: "\u0000PROMPTG_ESC_0\u0000"}` the name `b` is absent from vars and has a
non-null default; the substitution pass replaces `{{b}}` by the default, and
the unescape pass then deletes it: the rendering is the empty string, not the
string form of the default. The same happens to the value of `a` in vars
`{a: "\u0000PROMPTG_ESC_0\u0000"}`. -/
theorem renderContent_default_collision :
    IsName (js "b") ∧
    hasOwnProperty emptyObject (js "b") = false ∧
    HasEntry defaultsPlaceholderB (js "b") (Value.str (placeholder 0)) ∧
    isNullish (Value.str (placeholder 0)) = false ∧
    substitutePass emptyObject defaultsPlaceholderB refB = placeholder 0 ∧
    renderContent refB emptyObject defaultsPlaceholderB = [] ∧
    renderContent refB emptyObject defaultsPlaceholderB ≠ toJSString (Value.str (placeholder 0)) ∧
    HasEntry varsPlaceholderA (js "a") (Value.str (placeholder 0)) ∧
    renderContent refA varsPlaceholderA defaultsAX ≠ toJSString (Value.str (placeholder 0)) :=
  ⟨⟨by decide, by decide⟩, by decide, List.mem_singleton.mpr rfl, rfl, by decide, by decide,
    by decide, List.mem_singleton.mpr rfl, by decide⟩

/-- C5, amended. A name with a non-null value in vars is rendered from vars
and never from defaults: when every name extracted from the content has one,
the rendering is the same for every defaults map. For a reference to a name
with a non-null value in vars, the substitution pass yields the string form
of that value, whatever the defaults hold; for a reference to a name that vars
does not have, it yields the string form of the non-null default. In both
cases the rendering of the reference is the unescape pass applied to that
string form, which is the string form itself when it holds no U+0000. The
test vector renders to `13`. -/
theorem renderContent_precedence (C : JSString) (vars d1 d2 : JSObject)
    (h : ∀ n ∈ extractVariables C, HasValue vars n) :
    renderContent C vars d1 = renderContent C vars d2 ∧
    (∀ (n w1 w2 : JSString) (vars' defaults : JSObject) (v : Value),
      IsName n → IsBlank w1 → IsBlank w2 → HasEntry vars' n v → isNullish v = false →
        substitutePass vars' defaults (varRef w1 n w2) = toJSString v ∧
        renderContent (varRef w1 n w2) vars' defaults = unescapePass [] (toJSString v) ∧
        (0 ∉ toJSString v → renderContent (varRef w1 n w2) vars' defaults = toJSString v)) ∧
    (∀ (n w1 w2 : JSString) (vars' defaults : JSObject) (d : Value),
      IsName n → IsBlank w1 → IsBlank w2 → hasOwnProperty vars' n = false →
      HasEntry defaults n d → isNullish d = false →
        substitutePass vars' defaults (varRef w1 n w2) = toJSString d ∧
        renderContent (varRef w1 n w2) vars' defaults = unescapePass [] (toJSString d) ∧
        (0 ∉ toJSString d → renderContent (varRef w1 n w2) vars' defaults = toJSString d)) ∧
    renderContent (varRef [] (js "a") [] ++ varRef [] (js "b") []) varsA1 defaultsA2B3 =
      js "13" := by
  have key : ∀ (n w1 w2 : JSString) (vars' defaults : JSObject) (v : Value),
      IsName n → IsBlank w1 → IsBlank w2 →
      substituteCallback vars' defaults (varRef w1 n w2) n = toJSString v →
        substitutePass vars' defaults (varRef w1 n w2) = toJSString v ∧
        renderContent (varRef w1 n w2) vars' defaults = unescapePass [] (toJSString v) ∧
        (0 ∉ toJSString v → renderContent (varRef w1 n w2) vars' defaults = toJSString v) := by
    intro n w1 w2 vars' defaults v hn hw1 hw2 hcb
    have e : substitutePass vars' defaults (varRef w1 n w2) = toJSString v := by
      rw [substitutePass_single vars' defaults ⟨w1, w2, hw1, hw2, hn, rfl⟩, hcb]
    have r : renderContent (varRef w1 n w2) vars' defaults = unescapePass [] (toJSString v) := by
      rw [renderContent_of_not_contains
        (not_containsEscRef_of_bang (bang_not_mem_varRef hw1 hw2 hn)), e]
    exact ⟨e, r, fun h0 => by rw [r, unescapePass_nul_free _ _ h0]⟩
  refine ⟨renderContent_vars_only C vars d1 d2 h, ?_, ?_, by decide⟩
  · intro n w1 w2 vars' defaults v hn hw1 hw2 hv hnn
    exact key n w1 w2 vars' defaults v hn hw1 hw2 (substituteCallback_vars defaults _ hv hnn)
  · intro n w1 w2 vars' defaults d hn hw1 hw2 hvars hd hnn
    exact key n w1 w2 vars' defaults d hn hw1 hw2
      (substituteCallback_defaults _ hvars hd hnn)

/-- C5, instance: `{{a}} and {{ a }}` with vars `{a: "1"}`, against the
defaults `{a: "2", b: "3"}` and `{}`. -/
theorem renderContent_precedence_witness :
    (∀ n ∈ extractVariables contentTwiceA, HasValue varsA1 n) ∧
    renderContent contentTwiceA varsA1 defaultsA2B3 = js "1 and 1" ∧
    renderContent contentTwiceA varsA1 defaultsA2B3 =
      renderContent contentTwiceA varsA1 emptyObject :=
  have h : ∀ n ∈ extractVariables contentTwiceA, HasValue varsA1 n := fun n hn => by
    have e : extractVariables contentTwiceA = [js "a"] := by decide
    rw [e, List.mem_singleton] at hn
    exact ⟨Value.str (js "1"), by rw [hn]; exact List.mem_singleton.mpr rfl, rfl⟩
  ⟨h, by decide, (renderContent_precedence contentTwiceA varsA1 defaultsA2B3 emptyObject h).1⟩

/-- C6. A name is extracted exactly when the content holds a reference
`{{` blanks name blanks `}}` to it, and only names are extracted; an escaped
reference alone, `{{}}`, `{{ }}` and `{{foo` yield nothing; the round-trip
content yields `missing` and `name`. -/
theorem extractVariables_mem_iff (C n : JSString) (hn : IsName n) :
    (n ∈ extractVariables C ↔
      ∃ pre w1 w2 post, IsBlank w1 ∧ IsBlank w2 ∧ C = pre ++ varRef w1 n w2 ++ post) ∧
    (∀ x ∈ extractVariables C, IsName x) ∧
    extractVariables (escRef n) = [] ∧
    extractVariables malformedEmpty = [] ∧
    extractVariables malformedBlank = [] ∧
    extractVariables unterminated = [] ∧
    extractVariables roundTripContent = [js "missing", js "name"] := by
  refine ⟨?_, ?_, extractVariables_escRef hn, by decide, by decide, by decide, by decide⟩
  · unfold extractVariables
    rw [mem_normalized, mem_matchAllGroups_matchVar]
    exact ⟨fun h => h.2, fun h => ⟨hn, h⟩⟩
  · intro x hx
    exact ((mem_matchAllGroups_matchVar C).mp ((mem_normalized _).mp hx)).1

/-- C6, instance: the name `name` in the round-trip content. -/
theorem extractVariables_mem_iff_witness :
    IsName (js "name") ∧ js "name" ∈ extractVariables roundTripContent ∧
    ∃ pre w1 w2 post, IsBlank w1 ∧ IsBlank w2 ∧
      roundTripContent = pre ++ varRef w1 (js "name") w2 ++ post :=
  ⟨⟨by decide, by decide⟩, by decide,
    (extractVariables_mem_iff roundTripContent (js "name") ⟨by decide, by decide⟩).1.mp
      (by decide)⟩

/-- C7. The list returned by `extractVariables` has no duplicates, is sorted
in strictly ascending lexicographic order of code units, holds exactly the
captured names, and is the same for any two contents whose references name
the same set of variables, in whatever order and however often; so
`{{b}} {{ab}} {{a}} {{b}}` and `{{a}}{{b}}{{ab}}` both yield `a`, `ab`, `b`. -/
theorem extractVariables_canonical (C : JSString) :
    (extractVariables C).Nodup ∧
    List.Sorted (· < ·) (extractVariables C) ∧
    (∀ n, n ∈ extractVariables C ↔ n ∈ matchAllGroups matchVar C) ∧
    (∀ C' : JSString,
      (∀ n, n ∈ matchAllGroups matchVar C' ↔ n ∈ matchAllGroups matchVar C) →
        extractVariables C' = extractVariables C) ∧
    extractVariables contentRepeated = [js "a", js "ab", js "b"] ∧
    extractVariables contentOnce = [js "a", js "ab", js "b"] :=
  ⟨nodup_normalized _, sorted_normalized _, fun _ => mem_normalized _,
    fun _ h => normalized_congr h, by decide, by decide⟩

/-- C8. The list returned by `computeMissing` has no duplicates, is sorted in
strictly ascending order, and holds exactly the names of `extracted` that have
a non-null value neither in vars nor in defaults; the two test vectors. -/
theorem computeMissing_spec (extracted : List JSString) (vars defaults : JSObject) :
    (computeMissing extracted vars defaults).Nodup ∧
    List.Sorted (· < ·) (computeMissing extracted vars defaults) ∧
    (∀ n, n ∈ computeMissing extracted vars defaults ↔
      n ∈ extracted ∧ ¬ HasValue vars n ∧ ¬ HasValue defaults n) ∧
    computeMissing [js "z"] emptyObject emptyObject = [js "z"] ∧
    computeMissing [js "a"] varsNullA defaultsAX = [] :=
  ⟨nodup_normalized _, sorted_normalized _, fun _ => mem_computeMissing _ _ _,
    by decide, by decide⟩

/-- C9 (code defect). A reference with blanks extracts to its name, and it
renders like the reference without blanks whenever the replacer finds a value
for the name. With vars `{a: null}` and defaults `{a: "x"}` the name `a` has a
value (it is not reported missing), yet `{{ a}}` and `{{a}}` render
differently: each is left as written, blank included. -/
theorem renderContent_whitespace_null_in_vars :
    (∀ w1 n w2 : JSString, IsBlank w1 → IsBlank w2 → IsName n →
      extractVariables (varRef w1 n w2) = [n]) ∧
    (∀ (w1 n w2 : JSString) (vars defaults : JSObject) (v : Value),
      IsBlank w1 → IsBlank w2 → IsName n →
      (HasEntry vars n v ∨ (hasOwnProperty vars n = false ∧ HasEntry defaults n v)) →
      isNullish v = false →
        renderContent (varRef w1 n w2) vars defaults =
          renderContent (varRef [] n []) vars defaults) ∧
    HasValue defaultsAX (js "a") ∧
    computeMissing [js "a"] varsNullA defaultsAX = [] ∧
    renderContent (varRef [32] (js "a") []) varsNullA defaultsAX = varRef [32] (js "a") [] ∧
    renderContent (varRef [] (js "a") []) varsNullA defaultsAX = varRef [] (js "a") [] ∧
    renderContent (varRef [32] (js "a") []) varsNullA defaultsAX ≠
      renderContent (varRef [] (js "a") []) varsNullA defaultsAX :=
  ⟨fun _ _ _ hw1 hw2 hn => extractVariables_varRef hw1 hw2 hn,
    fun _ _ _ _ _ _ hw1 hw2 hn hres hnn =>
      (renderContent_whitespace_of_value hw1 hw2 hn hres hnn).2,
    ⟨Value.str (js "x"), List.mem_singleton.mpr rfl, rfl⟩, by decide, by decide, by decide,
    by decide⟩

/-- C10. `parseJsonFile` fails with an encoding error exactly when the bytes
start with one of the five byte-order marks, before `jsonParse` is consulted;
the message is that of the longest mark the bytes start with (bytes that start
with `FF FE 00 00` also start with `FF FE` and are reported as UTF-32 LE) and
names its encoding; any other input gives the result of `jsonParse`. -/
theorem parseJsonFile_spec {ε α : Type} (jsonParse : List Nat → Except ε α) (buf : List Nat) :
    (IsEncodingError (parseJsonFile jsonParse buf) ↔
      (bomUtf8 <+: buf ∨ bomUtf32BE <+: buf ∨ bomUtf32LE <+: buf ∨ bomUtf16BE <+: buf ∨
        bomUtf16LE <+: buf)) ∧
    (bomUtf8 <+: buf →
      parseJsonFile jsonParse buf = Except.error (LoadError.encoding msgUtf8Bom)) ∧
    (bomUtf32BE <+: buf →
      parseJsonFile jsonParse buf = Except.error (LoadError.encoding msgUtf32BE)) ∧
    (bomUtf32LE <+: buf →
      parseJsonFile jsonParse buf = Except.error (LoadError.encoding msgUtf32LE)) ∧
    (bomUtf16BE <+: buf →
      parseJsonFile jsonParse buf = Except.error (LoadError.encoding msgUtf16BE)) ∧
    (bomUtf16LE <+: buf → ¬ bomUtf32LE <+: buf →
      parseJsonFile jsonParse buf = Except.error (LoadError.encoding msgUtf16LE)) ∧
    (bomUtf32LE <+: buf → bomUtf16LE <+: buf) ∧
    (¬ bomUtf8 <+: buf → ¬ bomUtf32BE <+: buf → ¬ bomUtf32LE <+: buf → ¬ bomUtf16BE <+: buf →
      ¬ bomUtf16LE <+: buf → parseJsonFile jsonParse buf = liftParse (jsonParse buf)) ∧
    ("UTF-8 BOM".toList <:+: msgUtf8Bom.toList ∧ "UTF-32 BE".toList <:+: msgUtf32BE.toList ∧
      "UTF-32 LE".toList <:+: msgUtf32LE.toList ∧ "UTF-16 BE".toList <:+: msgUtf16BE.toList ∧
      "UTF-16 LE".toList <:+: msgUtf16LE.toList) ∧
    parseJsonFile jsonParse [0xef, 0xbb, 0xbf, 0x7b, 0x7d] =
      Except.error (LoadError.encoding msgUtf8Bom) ∧
    "UTF-8 BOM not allowed".toList <:+: msgUtf8Bom.toList ∧
    parseJsonFile jsonParse [0x7b, 0x7d] = liftParse (jsonParse [0x7b, 0x7d]) := by
  have hd := bom_disjoint buf
  refine ⟨?_, ?_, ?_, ?_, ?_, ?_, utf32LE_utf16LE, ?_, ?_, ?_, ?_, ?_⟩
  · rw [parseJsonFile_eq]
    unfold IsEncodingError liftParse
    constructor
    · intro h
      by_contra hn
      simp only [not_or] at hn
      obtain ⟨h1, h2, h3, h4, h5⟩ := hn
      simp only [h1, h2, h3, h4, h5, if_false] at h
      obtain ⟨msg, hmsg⟩ := h
      cases hj : jsonParse buf <;> rw [hj] at hmsg <;> simp at hmsg
    · intro h
      split_ifs with h1 h2 h3 h4 h5
      · exact ⟨_, rfl⟩
      · exact ⟨_, rfl⟩
      · exact ⟨_, rfl⟩
      · exact ⟨_, rfl⟩
      · exact ⟨_, rfl⟩
      · tauto
  · intro h; rw [parseJsonFile_eq, if_pos h]
  · intro h
    have h1 : ¬ bomUtf8 <+: buf := fun h' => (hd.1 h').1 h
    rw [parseJsonFile_eq, if_neg h1, if_pos h]
  · intro h
    have h1 : ¬ bomUtf8 <+: buf := fun h' => (hd.1 h').2.1 h
    have h2 : ¬ bomUtf32BE <+: buf := fun h' => (hd.2.1 h').1 h
    rw [parseJsonFile_eq, if_neg h1, if_neg h2, if_pos h]
  · intro h
    have h1 : ¬ bomUtf8 <+: buf := fun h' => (hd.1 h').2.2.1 h
    have h2 : ¬ bomUtf32BE <+: buf := fun h' => (hd.2.1 h').2.1 h
    have h3 : ¬ bomUtf32LE <+: buf := (hd.2.2 h).1
    rw [parseJsonFile_eq, if_neg h1, if_neg h2, if_neg h3, if_pos h]
  · intro h h3
    have h1 : ¬ bomUtf8 <+: buf := fun h' => (hd.1 h').2.2.2 h
    have h2 : ¬ bomUtf32BE <+: buf := fun h' => (hd.2.1 h').2.2 h
    have h4 : ¬ bomUtf16BE <+: buf := fun h' => (hd.2.2 h').2 h
    rw [parseJsonFile_eq, if_neg h1, if_neg h2, if_neg h3, if_neg h4, if_pos h]
  · intro h1 h2 h3 h4 h5
    rw [parseJsonFile_eq, if_neg h1, if_neg h2, if_neg h3, if_neg h4, if_neg h5]
  · decide
  · rw [parseJsonFile_eq, if_pos (by decide)]
  · decide
  · rw [parseJsonFile_eq, if_neg (by decide), if_neg (by decide), if_neg (by decide),
      if_neg (by decide), if_neg (by decide)]

end PromptG
